import Mathlib

/-!
Shallow embedding of the MiLA tool-chain engine
(`src/components/tool_chain.py`, `src/models/tool_chain.py`), of the
session manager (`src/components/session_manager.py`,
`src/models/session.py`) and of the pending-email-confirmation flow of
`src/components/ai_orchestrator.py` / `src/api/chat.py`.

Modelling conventions:
* Python dictionaries used as parameter/context bags (`Dict[str, Any]`)
  are modelled as functions `String → Option Val`; `a.update(b)` becomes
  `Ctx.update a b` (keys of `b` win).
* The tool registry and the session store are Python dicts whose entry
  count matters, so they are modelled as association lists with
  first-match lookup and in-place insertion (`dictInsert`), which is
  exactly the observable behaviour of `d[k] = v` on a `dict`.
* `datetime.now()` is modelled by an abstract tick counter threaded
  through the executor state (only "a timestamp was stamped" matters),
  and by an explicit integer `now` parameter (seconds) for the session
  manager, where actual comparisons matter.
* The `async` functions of the source `await` every call immediately and
  sequentially, so they are modelled as plain functions.
* The executor model additionally records every tool invocation in a
  `calls` log (step index, tool name, argument dictionary).  This is
  instrumentation, not Python state: it lets "step's tool function is
  never invoked" be stated.  It influences nothing else.
* Fields that no claim mentions (summary message, aggregated result,
  `execution_time_ms`, `depends_on`, progress `step_result`/`timestamp`)
  are omitted from the corresponding structures.
-/

namespace MiLA

/-- Lookup in a Python `dict` modelled as an association list (first match). -/
def dictLookup {α : Type} : List (String × α) → String → Option α
  | [], _ => none
  | (k', v) :: rest, k => if k' = k then some v else dictLookup rest k

/-- Python `d[k] = v`: replace the value in place if the key exists, else append. -/
def dictInsert {α : Type} : List (String × α) → String → α → List (String × α)
  | [], k, v => [(k, v)]
  | (k', v') :: rest, k, v =>
      if k' = k then (k, v) :: rest else (k', v') :: dictInsert rest k v

/-- `nth l i` is Python `l[i]` guarded by an index check (`None` out of range). -/
def nth {α : Type} : List α → Nat → Option α
  | [], _ => none
  | a :: _, 0 => some a
  | _ :: l, n + 1 => nth l n

/-- In-place update of the `i`-th list element (Python lists are mutable;
the executor mutates one step of `plan.steps` at a time). -/
def setIdx {α : Type} : List α → Nat → α → List α
  | [], _, _ => []
  | _ :: l, 0, a => a :: l
  | b :: l, n + 1, a => b :: setIdx l n a

/-- Map with the element's position, starting at `i` (used for the
`plan.steps[step.step_number:]` slice update). -/
def mapWithIndex {α : Type} (f : Nat → α → α) : Nat → List α → List α
  | _, [] => []
  | i, a :: l => f i a :: mapWithIndex f (i + 1) l

/-- A JSON-ish value stored in context dictionaries.  `dictV` holds a
nested dictionary (e.g. a whole loan record stored under
`current_loan_data`). -/
inductive Val : Type where
  | null : Val
  | str : String → Val
  | num : Int → Val
  | dictV : (String → Option Val) → Val

/-- A Python `Dict[str, Any]` used for parameters and context snapshots. -/
def Ctx : Type := String → Option Val

def Ctx.empty : Ctx := fun _ => none

/-- Python `a.update(b)` as observed through lookups: keys of `b` override
keys of `a`; keys only in `a` are kept. -/
def Ctx.update (a b : Ctx) : Ctx := fun k =>
  match b k with
  | some v => some v
  | none => a k

/-- A dict literal with explicitly listed entries. -/
def Ctx.ofList (l : List (String × Val)) : Ctx := fun k => dictLookup l k

/-- Python `d.get(key)` stored as a dict value: a missing key is stored as
`None` (`Val.null`), which is still a present key of the built dict. -/
def optVal (o : Option Val) : Val := o.getD Val.null

/-- `ToolStepStatus` from `src/models/tool_chain.py`. -/
inductive ToolStepStatus : Type where
  | pending
  | in_progress
  | completed
  | failed
  | skipped
deriving DecidableEq, Repr

/-- The parts of a `ToolResult` the chain engine reads: the `success` flag
and the `result` payload dictionary. -/
structure ToolResult : Type where
  success : Bool
  result : Option Ctx

/-- Outcome of awaiting `execute_func`: a returned `ToolResult`, or a
raised exception carrying `str(e)`. -/
inductive ToolOutcome : Type where
  | ok : ToolResult → ToolOutcome
  | exn : String → ToolOutcome

/-- `ToolDefinition` dataclass from `src/components/tool_chain.py`. -/
structure ToolDefinition : Type where
  name : String
  execute_func : Ctx → ToolOutcome
  description : String
  required_context : List String
  provides_context : List String

/-- `ToolChainEngine.register_tool`: unconditional `dict` assignment into
`self.available_tools` (silently overwrites an existing entry);
`required_context or []` / `provides_context or []` default the `None`
arguments. -/
def register_tool (available_tools : List (String × ToolDefinition))
    (name : String) (execute_func : Ctx → ToolOutcome) (description : String)
    (required_context : Option (List String)) (provides_context : Option (List String)) :
    List (String × ToolDefinition) :=
  dictInsert available_tools name
    { name := name
      execute_func := execute_func
      description := description
      required_context := required_context.getD []
      provides_context := provides_context.getD [] }

/-- `ToolStep` from `src/models/tool_chain.py` (claim-relevant fields). -/
structure ToolStep : Type where
  step_number : Nat
  tool_name : String
  parameters : Ctx
  status : ToolStepStatus
  result : Option ToolResult
  error_message : Option String
  started_at : Option Nat
  completed_at : Option Nat
  context_data : Ctx

/-- `ToolChainPlan` (claim-relevant fields). -/
structure ToolChainPlan : Type where
  chain_id : String
  description : String
  steps : List ToolStep
  total_steps : Nat

def isTerminal (s : ToolStepStatus) : Bool :=
  match s with
  | .completed | .failed | .skipped => true
  | _ => false

/-- `ToolChainPlan.completed_steps`. -/
def completed_steps (steps : List ToolStep) : Nat :=
  (steps.filter (fun s => s.status = ToolStepStatus.completed)).length

/-- `ToolChainPlan.failed_steps`. -/
def failed_steps (steps : List ToolStep) : Nat :=
  (steps.filter (fun s => s.status = ToolStepStatus.failed)).length

/-- `ToolChainPlan.is_complete`: every step is Completed, Failed or Skipped. -/
def is_complete (steps : List ToolStep) : Bool :=
  steps.all (fun s => isTerminal s.status)

/-- `ToolChainPlan.is_successful`: complete and no failed steps. -/
def is_successful (steps : List ToolStep) : Bool :=
  is_complete steps && failed_steps steps == 0

/-- `ProgressUpdate` from `src/models/tool_chain.py` (claim-relevant fields;
`percentage` is exact rational arithmetic, faithful to the Python float
expressions for the small operand sizes at play). -/
structure ProgressUpdate : Type where
  chain_id : String
  current_step : Nat
  total_steps : Nat
  step_name : String
  step_status : ToolStepStatus
  message : String
  percentage : ℚ

/-- Python `min(a, b)`: the first argument unless the second is strictly
smaller (stated via `Rat.blt` so that it evaluates by kernel reduction;
`pymin_eq_min` below identifies it with `min`). -/
def pymin (a b : ℚ) : ℚ := if Rat.blt b a then b else a

/-- The percentage computation of `_send_progress_update`: a default of
`step_number/total*100`, overwritten for Completed (same formula) and for
InProgress (`(step_number-1)/total*100 + 10`), then capped by
`min(percentage, 100)`. -/
def progressPercentage (step_number total : Nat) (status : ToolStepStatus) : ℚ :=
  let p : ℚ := ((step_number : ℚ) / (total : ℚ)) * 100
  let p :=
    match status with
    | ToolStepStatus.completed => ((step_number : ℚ) / (total : ℚ)) * 100
    | ToolStepStatus.in_progress => (((step_number : ℚ) - 1) / (total : ℚ)) * 100 + 10
    | _ => p
  pymin p 100

/-- `_get_progress_message`. -/
def getProgressMessage (step : ToolStep) : String :=
  match step.status with
  | .pending => "Waiting to execute " ++ step.tool_name ++ "..."
  | .in_progress => "Executing " ++ step.tool_name ++ "..."
  | .completed => "Completed " ++ step.tool_name
  | .failed =>
      "Failed " ++ step.tool_name ++ ": " ++
        (match step.error_message with
         | some m => m
         | none => "None")
  | .skipped => "Skipped " ++ step.tool_name

/-- The `context_updates` dictionary built by `_update_context_from_result`:
fixed per-tool-name rules, empty for any other tool or a non-success
result (`loan_data = result.result or {}` defaults a missing payload). -/
def contextUpdatesFor (tool_name : String) (res : ToolResult) : Ctx :=
  if tool_name = "get_loan_info" ∧ res.success = true then
    let loan_data := res.result.getD Ctx.empty
    Ctx.ofList [
      ("current_loan_number", optVal (loan_data "loan_number")),
      ("current_borrower_name", optVal (loan_data "borrower_name")),
      ("current_loan_data", Val.dictV loan_data)]
  else if tool_name = "calculate_payoff" ∧ res.success = true then
    let payoff_data := res.result.getD Ctx.empty
    Ctx.ofList [
      ("current_payoff_data", Val.dictV payoff_data),
      ("total_payoff_amount", optVal (payoff_data "total_payoff"))]
  else if tool_name = "generate_pdf" ∧ res.success = true then
    let pdf_data := res.result.getD Ctx.empty
    Ctx.ofList [
      ("generated_pdf_filename", optVal (pdf_data "filename")),
      ("generated_pdf_url", optVal (pdf_data "download_url"))]
  else Ctx.empty

/-- `_update_context_from_result`: merge the updates into the snapshot of
every step of the `plan.steps[step.step_number:]` slice (0-based list
positions `≥ step.step_number`). -/
def updateContextFromResult (step : ToolStep) (res : ToolResult)
    (steps : List ToolStep) : List ToolStep :=
  let context_updates := contextUpdatesFor step.tool_name res
  mapWithIndex
    (fun j s =>
      if step.step_number ≤ j then
        { s with context_data := Ctx.update s.context_data context_updates }
      else s)
    0 steps

/-- Mutable state threaded through one `execute_chain` run: the plan's step
list, the tick clock, the emitted progress updates in emission order, and
the instrumentation log of tool invocations. -/
structure ExecState : Type where
  steps : List ToolStep
  time : Nat
  updates : List ProgressUpdate
  calls : List (Nat × String × Ctx)

/-- `_send_progress_update` (callback failures are swallowed in the source,
so emission is the whole observable effect). -/
def sendProgressUpdate (chain_id : String) (total_steps : Nat) (step : ToolStep)
    (st : ExecState) : ExecState :=
  { st with
    updates := st.updates ++ [{
      chain_id := chain_id
      current_step := step.step_number
      total_steps := total_steps
      step_name := step.tool_name
      step_status := step.status
      message := getProgressMessage step
      percentage := progressPercentage step.step_number total_steps step.status }] }

def setStep (st : ExecState) (i : Nat) (s : ToolStep) : ExecState :=
  { st with steps := setIdx st.steps i s }

/-- `_execute_step` acting on the step at list position `i`:
* unknown tool: mark Failed with a diagnostic and return (no progress
  update is emitted on this early-return path);
* otherwise mark InProgress, stamp start, emit progress, invoke the tool
  with `parameters = step.parameters.copy(); parameters.update(step.context_data)`;
* a returned result: record it, stamp end, mark Completed, and if the
  result has `success = True` merge its declared context updates into the
  later steps; a raised exception: mark Failed with `str(e)`, stamp end;
* finally emit a progress update for the terminal status. -/
def execStep (tools : List (String × ToolDefinition)) (chain_id : String)
    (total_steps : Nat) (st : ExecState) (i : Nat) : ExecState :=
  match nth st.steps i with
  | none => st
  | some step =>
    match dictLookup tools step.tool_name with
    | none =>
        setStep st i
          { step with
            status := ToolStepStatus.failed
            error_message := some ("Tool not available: " ++ step.tool_name) }
    | some tool_def =>
        let step := { step with
          status := ToolStepStatus.in_progress
          started_at := some st.time }
        let st := setStep { st with time := st.time + 1 } i step
        let st := sendProgressUpdate chain_id total_steps step st
        let parameters := Ctx.update step.parameters step.context_data
        let st := { st with calls := st.calls ++ [(i, step.tool_name, parameters)] }
        match tool_def.execute_func parameters with
        | .ok res =>
            let step := { step with
              result := some res
              completed_at := some st.time
              status := ToolStepStatus.completed }
            let st := setStep { st with time := st.time + 1 } i step
            let st :=
              if res.success then
                { st with steps := updateContextFromResult step res st.steps }
              else st
            sendProgressUpdate chain_id total_steps step st
        | .exn msg =>
            let step := { step with
              status := ToolStepStatus.failed
              error_message := some msg
              completed_at := some st.time }
            let st := setStep { st with time := st.time + 1 } i step
            sendProgressUpdate chain_id total_steps step st

/-- The `for step in plan.steps: ... if step.status == FAILED: break` loop of
`execute_chain`, as fuel-indexed recursion from list position `i`
(`execute_chain` supplies fuel `= plan.steps.length`). -/
def runSteps (tools : List (String × ToolDefinition)) (chain_id : String)
    (total_steps : Nat) : Nat → Nat → ExecState → ExecState
  | 0, _, st => st
  | n + 1, i, st =>
      if i < st.steps.length then
        let st' := execStep tools chain_id total_steps st i
        match nth st'.steps i with
        | some s =>
            if s.status = ToolStepStatus.failed then st'
            else runSteps tools chain_id total_steps n (i + 1) st'
        | none => st'
      else st

/-- `_extract_final_context`: the last step's snapshot, `{}` for an empty plan. -/
def extractFinalContext (steps : List ToolStep) : Ctx :=
  match nth steps (steps.length - 1) with
  | some s => s.context_data
  | none => Ctx.empty

/-- `ChainExecutionResult` (claim-relevant fields; `plan` is carried as the
final step list). -/
structure ChainExecutionResult : Type where
  chain_id : String
  steps : List ToolStep
  success : Bool
  context_data : Ctx

/-- `ToolChainEngine.execute_chain`: merge the session context into every
step's snapshot, run the steps in order breaking at the first Failed step,
then assemble the result from `plan.is_successful` and
`_extract_final_context`.  Returns the result together with the final
executor state (for the emitted updates and the invocation log). -/
def execute_chain (tools : List (String × ToolDefinition)) (plan : ToolChainPlan)
    (session_context : Ctx) : ChainExecutionResult × ExecState :=
  let steps0 := plan.steps.map
    (fun s => { s with context_data := Ctx.update s.context_data session_context })
  let st0 : ExecState := { steps := steps0, time := 0, updates := [], calls := [] }
  let stF := runSteps tools plan.chain_id plan.total_steps steps0.length 0 st0
  ({ chain_id := plan.chain_id
     steps := stF.steps
     success := is_successful stF.steps
     context_data := extractFinalContext stF.steps }, stF)

/-- Step materialization of `create_custom_chain` / `create_chain_plan`:
1-based step numbers in list order, status Pending, a fresh copy of the
same initial context for every step. -/
def makeStep (n : Nat) (tool_name : String) (context : Ctx) : ToolStep :=
  { step_number := n
    tool_name := tool_name
    parameters := Ctx.empty
    status := ToolStepStatus.pending
    result := none
    error_message := none
    started_at := none
    completed_at := none
    context_data := context }

/-- `for i, tool_name in enumerate(tool_sequence, 1)` of `create_custom_chain`. -/
def enumSteps (context : Ctx) : Nat → List String → List ToolStep
  | _, [] => []
  | n, name :: rest => makeStep (n + 1) name context :: enumSteps context (n + 1) rest

/-! ### Session manager (`src/components/session_manager.py`, `src/models/session.py`) -/

/-- `SessionStatus` from `src/models/session.py`. -/
inductive SessionStatus : Type where
  | active
  | inactive
  | expired
deriving DecidableEq, Repr

/-- `ChatSession` (claim-relevant fields; timestamps are integer seconds). -/
structure ChatSession : Type where
  session_id : String
  status : SessionStatus
  created_at : Int
  last_activity : Int
  expires_at : Int
deriving DecidableEq, Repr

/-- `ChatSession.is_expired`: `datetime.now() > self.expires_at` (strict). -/
def ChatSession.is_expired (now : Int) (s : ChatSession) : Bool :=
  decide (s.expires_at < now)

/-- `ChatSession.update_activity`: refresh `last_activity`, and flip the
status to Expired when past expiry. -/
def ChatSession.update_activity (now : Int) (s : ChatSession) : ChatSession :=
  let s := { s with last_activity := now }
  if s.is_expired now then { s with status := SessionStatus.expired } else s

/-- `SessionManager.sessions`, a `Dict[str, ChatSession]`. -/
def SessionStore : Type := List (String × ChatSession)

/-- `SessionManager.create_session` (with an explicit id, as in
`create_session_with_id`): `expires_at = now + timedelta(hours=expiry_hours)`,
stored into `self.sessions`. -/
def create_session (store : SessionStore) (now : Int) (session_id : String)
    (expiry_hours : Int) : SessionStore × ChatSession :=
  let session : ChatSession :=
    { session_id := session_id
      status := SessionStatus.active
      created_at := now
      last_activity := now
      expires_at := now + expiry_hours * 3600 }
  (dictInsert store session_id session, session)

/-- `SessionManager.get_session`: `None` for an unknown id; for an expired
session flip the (still resident) session's status to Expired and return
`None`; otherwise refresh activity and return the session.  The returned
store reflects the in-place mutation of the stored session object. -/
def get_session (store : SessionStore) (now : Int) (session_id : String) :
    Option ChatSession × SessionStore :=
  match dictLookup store session_id with
  | none => (none, store)
  | some session =>
      if session.is_expired now then
        (none, dictInsert store session_id { session with status := SessionStatus.expired })
      else
        let session := session.update_activity now
        (some session, dictInsert store session_id session)

/-! ### Session context and the pending-email-confirmation triple
(`src/models/session.py`, `src/components/ai_orchestrator.py`,
`src/api/chat.py`) -/

/-- `ContextData` (the fields touched by `clear_loan_context` and the
confirmation flow; `active_chain_id`, `last_chain_result`, `debug_mode`
and `tool_context` are never read or written by those operations and are
omitted). -/
structure ContextData : Type where
  current_loan_number : Option String
  current_borrower_name : Option String
  current_loan_data : Option Ctx
  current_payoff_data : Option Ctx
  generated_pdf_filename : Option String
  generated_pdf_url : Option String
  borrower_email : Option String
  pending_email_confirmation : Bool
  pending_email_address : Option String
  pending_email_loan_number : Option String

/-- Python truthiness of an optional string (`if email_address and ...`):
present and non-empty. -/
def truthyStr : Option String → Bool
  | none => false
  | some s => !s.isEmpty

/-- `ContextData.clear_loan_context`: reset every loan-related field,
including the whole pending-confirmation triple. -/
def clear_loan_context (c : ContextData) : ContextData :=
  { c with
    current_loan_number := none
    current_borrower_name := none
    current_loan_data := none
    current_payoff_data := none
    generated_pdf_filename := none
    generated_pdf_url := none
    borrower_email := none
    pending_email_confirmation := false
    pending_email_address := none
    pending_email_loan_number := none }

/-- The single site that raises the pending-confirmation flag
(`AIOrchestrator._execute_simplified`, the email branch): guarded by
`if email_address and session.context.current_loan_number:`; on a falsy
guard the pending fields stay untouched. -/
def requestEmailConfirmation (c : ContextData) (email_address : Option String) :
    ContextData :=
  if truthyStr email_address && truthyStr c.current_loan_number then
    { c with
      pending_email_confirmation := true
      pending_email_address := email_address
      pending_email_loan_number := c.current_loan_number }
  else c

/-- The pending-state clearing performed on confirmation, on decline and on
the `clear`-command path (`ai_orchestrator.py` confirm/decline branches and
`api/chat.py`): all three fields reset in one step. -/
def clearPendingEmail (c : ContextData) : ContextData :=
  { c with
    pending_email_confirmation := false
    pending_email_address := none
    pending_email_loan_number := none }

/-- The invariant of claim C9: a raised flag has a non-null, non-empty
target address. -/
def pendingInv (c : ContextData) : Prop :=
  c.pending_email_confirmation = true → truthyStr c.pending_email_address = true

instance (c : ContextData) : Decidable (pendingInv c) := by
  unfold pendingInv; infer_instance

/-! ### Executor observers used by the theorems -/

/-- Status of the step at list position `j`. -/
def statusAt (st : ExecState) (j : Nat) : Option ToolStepStatus :=
  (nth st.steps j).map ToolStep.status

/-- Context snapshot of the step at list position `j`. -/
def ctxAt (st : ExecState) (j : Nat) : Option Ctx :=
  (nth st.steps j).map ToolStep.context_data

/-- The emitted percentage sequence, in emission order. -/
def pcts (st : ExecState) : List ℚ :=
  st.updates.map ProgressUpdate.percentage

/-! ### Concrete fixtures for witnesses and counterexamples -/

/-- A tool that returns a plain successful result. -/
def okTrueTool : Ctx → ToolOutcome := fun _ => ToolOutcome.ok { success := true, result := none }

/-- A tool that returns an explicit failure result (`success=False`)
without raising. -/
def okFalseTool : Ctx → ToolOutcome := fun _ => ToolOutcome.ok { success := false, result := none }

/-- A tool that raises. -/
def raiseTool (msg : String) : Ctx → ToolOutcome := fun _ => ToolOutcome.exn msg

/-- A demo registry: `alpha` succeeds, `beta` returns `success=False`,
`boom` raises. -/
def demoTools : List (String × ToolDefinition) :=
  register_tool
    (register_tool
      (register_tool [] "alpha" okTrueTool "always succeeds" none none)
      "beta" okFalseTool "returns an explicit failure result" none none)
    "boom" (raiseTool "kaboom") "always raises" none none

/-- A materialized plan over a tool-name sequence (as `create_custom_chain`
builds it). -/
def planOf (chain_id : String) (names : List String) (context : Ctx) : ToolChainPlan :=
  { chain_id := chain_id
    description := "demo"
    steps := enumSteps context 0 names
    total_steps := names.length }

/-- Plan whose second step returns an explicit failure result. -/
def planBeta : ToolChainPlan := planOf "chain-beta" ["alpha", "beta", "alpha"] Ctx.empty

/-- Plan whose second step raises. -/
def planBoom : ToolChainPlan := planOf "chain-boom" ["alpha", "boom", "alpha"] Ctx.empty

/-- All-success three step plan. -/
def planGood : ToolChainPlan := planOf "chain-good" ["alpha", "alpha", "alpha"] Ctx.empty

/-- Eleven-step plan whose first tool raises: enough steps to push the
in-progress percentage above the completion percentage. -/
def planEleven : ToolChainPlan :=
  planOf "chain-eleven"
    ["boom", "alpha", "alpha", "alpha", "alpha", "alpha", "alpha", "alpha", "alpha", "alpha", "alpha"]
    Ctx.empty

/-- A single step with a literal parameter `k = 1` and a context snapshot
carrying `k = 2`, to observe which value the tool receives. -/
def overlapStep : ToolStep :=
  { makeStep 1 "alpha" (Ctx.ofList [("k", Val.num 2)]) with
    parameters := Ctx.ofList [("k", Val.num 1)] }

/-- One-step plan around `overlapStep`. -/
def planOverlap : ToolChainPlan :=
  { chain_id := "chain-overlap"
    description := "demo"
    steps := [overlapStep]
    total_steps := 1 }

/-! ### Basic lemmas about the list primitives -/

theorem nth_eq_none {α : Type} (l : List α) (i : Nat) (h : l.length ≤ i) :
    nth l i = none := by
  induction l generalizing i with
  | nil => rfl
  | cons a l ih =>
    cases i with
    | zero => exact absurd h (by simp)
    | succ n => exact ih n (Nat.le_of_succ_le_succ h)

theorem nth_isSome {α : Type} (l : List α) (i : Nat) (h : i < l.length) :
    ∃ a, nth l i = some a := by
  induction l generalizing i with
  | nil => exact absurd h (by simp)
  | cons a l ih =>
    cases i with
    | zero => exact ⟨a, rfl⟩
    | succ n => exact ih n (Nat.lt_of_succ_lt_succ h)

theorem nth_lt_length {α : Type} (l : List α) (i : Nat) (a : α) (h : nth l i = some a) :
    i < l.length := by
  by_contra hi
  rw [nth_eq_none l i (Nat.le_of_not_lt hi)] at h
  exact Option.noConfusion h

theorem nth_mem {α : Type} (l : List α) (i : Nat) (a : α) (h : nth l i = some a) :
    a ∈ l := by
  induction l generalizing i with
  | nil => exact Option.noConfusion h
  | cons b l ih =>
    cases i with
    | zero => exact (Option.some.injEq _ _ ▸ h : b = a) ▸ List.mem_cons_self b l
    | succ n => exact List.mem_cons_of_mem b (ih n h)

theorem mem_nth {α : Type} (l : List α) (a : α) (h : a ∈ l) :
    ∃ i, nth l i = some a := by
  induction l with
  | nil => cases h
  | cons b l ih =>
    rcases List.mem_cons.mp h with rfl | h
    · exact ⟨0, rfl⟩
    · obtain ⟨i, hi⟩ := ih h
      exact ⟨i + 1, hi⟩

theorem setIdx_length {α : Type} (l : List α) (i : Nat) (a : α) :
    (setIdx l i a).length = l.length := by
  induction l generalizing i with
  | nil => rfl
  | cons b l ih =>
    cases i with
    | zero => rfl
    | succ n => simp only [setIdx, List.length_cons, ih n]

theorem nth_setIdx_self {α : Type} (l : List α) (i : Nat) (a : α) (h : i < l.length) :
    nth (setIdx l i a) i = some a := by
  induction l generalizing i with
  | nil => exact absurd h (by simp)
  | cons b l ih =>
    cases i with
    | zero => rfl
    | succ n => exact ih n (Nat.lt_of_succ_lt_succ h)

theorem nth_setIdx_ne {α : Type} (l : List α) (i j : Nat) (a : α) (h : i ≠ j) :
    nth (setIdx l i a) j = nth l j := by
  induction l generalizing i j with
  | nil => rfl
  | cons b l ih =>
    cases i with
    | zero =>
      cases j with
      | zero => exact absurd rfl h
      | succ m => rfl
    | succ n =>
      cases j with
      | zero => rfl
      | succ m => exact ih n m (fun hh => h (by rw [hh]))

theorem mapWithIndex_length {α : Type} (f : Nat → α → α) (i : Nat) (l : List α) :
    (mapWithIndex f i l).length = l.length := by
  induction l generalizing i with
  | nil => rfl
  | cons a l ih => simp only [mapWithIndex, List.length_cons, ih (i + 1)]

theorem nth_mapWithIndex {α : Type} (f : Nat → α → α) (i j : Nat) (l : List α) :
    nth (mapWithIndex f i l) j = (nth l j).map (f (i + j)) := by
  induction l generalizing i j with
  | nil => rfl
  | cons a l ih =>
    cases j with
    | zero => simp [mapWithIndex, nth]
    | succ m =>
      have : i + 1 + m = i + (m + 1) := by omega
      simp [mapWithIndex, nth, ih (i + 1) m, this]

theorem nth_map {α β : Type} (f : α → β) (l : List α) (j : Nat) :
    nth (l.map f) j = (nth l j).map f := by
  induction l generalizing j with
  | nil => rfl
  | cons a l ih =>
    cases j with
    | zero => rfl
    | succ m => exact ih m

theorem dictLookup_dictInsert_self {α : Type} (m : List (String × α)) (k : String) (v : α) :
    dictLookup (dictInsert m k v) k = some v := by
  induction m with
  | nil => simp [dictInsert, dictLookup]
  | cons p m ih =>
    by_cases h : p.1 = k
    · simp [dictInsert, dictLookup, h]
    · simp [dictInsert, dictLookup, h, ih]

theorem dictInsert_length_of_mem {α : Type} (m : List (String × α)) (k : String) (v : α)
    (h : (dictLookup m k).isSome) : (dictInsert m k v).length = m.length := by
  induction m with
  | nil => simp [dictLookup] at h
  | cons p m ih =>
    by_cases hk : p.1 = k
    · simp [dictInsert, hk]
    · simp [dictLookup, hk] at h
      simp [dictInsert, hk, ih h]

/-! ### Percentage arithmetic -/

theorem pymin_eq_min (a b : ℚ) : pymin a b = min a b := by
  unfold pymin
  rcases hb : Rat.blt b a with _ | _
  · have hab : a ≤ b := hb
    simp [min_eq_left hab]
  · have hba : b < a := hb
    simp [min_eq_right hba.le]

theorem progressPercentage_in_progress (n N : Nat) :
    progressPercentage n N ToolStepStatus.in_progress
      = pymin ((((n : ℚ) - 1) / (N : ℚ)) * 100 + 10) 100 := rfl

theorem progressPercentage_completed (n N : Nat) :
    progressPercentage n N ToolStepStatus.completed
      = pymin (((n : ℚ) / (N : ℚ)) * 100) 100 := rfl

theorem progressPercentage_failed (n N : Nat) :
    progressPercentage n N ToolStepStatus.failed
      = pymin (((n : ℚ) / (N : ℚ)) * 100) 100 := rfl

theorem progressPercentage_nonneg (n N : Nat) (s : ToolStepStatus) (h : 1 ≤ n) :
    0 ≤ progressPercentage n N s := by
  have base : (0 : ℚ) ≤ ((n : ℚ) / (N : ℚ)) * 100 := by positivity
  have base2 : (0 : ℚ) ≤ (((n : ℚ) - 1) / (N : ℚ)) * 100 + 10 := by
    have h1 : (0 : ℚ) ≤ (n : ℚ) - 1 := by
      have : (1 : ℚ) ≤ (n : ℚ) := by exact_mod_cast h
      linarith
    have : (0 : ℚ) ≤ (((n : ℚ) - 1) / (N : ℚ)) * 100 := by positivity
    linarith
  cases s <;> simp only [progressPercentage] <;> rw [pymin_eq_min] <;>
    first
      | exact le_min base2 (by norm_num)
      | exact le_min base (by norm_num)

theorem progressPercentage_le_100 (n N : Nat) (s : ToolStepStatus) :
    progressPercentage n N s ≤ 100 := by
  cases s <;> simp only [progressPercentage] <;> rw [pymin_eq_min] <;>
    exact min_le_right _ _

/-! ### Properties of a single `_execute_step` -/

theorem execStep_none (T : List (String × ToolDefinition)) (cid : String) (N : Nat)
    (st : ExecState) (i : Nat) (h : nth st.steps i = none) :
    execStep T cid N st i = st := by
  simp only [execStep, h]

theorem execStep_steps_length (T : List (String × ToolDefinition)) (cid : String)
    (N : Nat) (st : ExecState) (i : Nat) :
    (execStep T cid N st i).steps.length = st.steps.length := by
  unfold execStep
  cases hs : nth st.steps i with
  | none => rfl
  | some step =>
    cases hl : dictLookup T step.tool_name with
    | none => simp [hl, setStep, setIdx_length]
    | some td =>
      cases ho : td.execute_func (Ctx.update step.parameters step.context_data) with
      | ok res =>
        cases hr : res.success <;>
          simp [hl, ho, hr, setStep, sendProgressUpdate, setIdx_length,
            updateContextFromResult, mapWithIndex_length]
      | exn msg => simp [hl, ho, setStep, sendProgressUpdate, setIdx_length]

theorem execStep_number (T : List (String × ToolDefinition)) (cid : String) (N : Nat)
    (st : ExecState) (i j : Nat) :
    (nth (execStep T cid N st i).steps j).map ToolStep.step_number
      = (nth st.steps j).map ToolStep.step_number := by
  unfold execStep
  cases hs : nth st.steps i with
  | none => rfl
  | some step =>
    have hi : i < st.steps.length := nth_lt_length _ _ _ hs
    have hi2 : i < (setIdx st.steps i
        { step with status := ToolStepStatus.in_progress, started_at := some st.time }).length := by
      simpa [setIdx_length] using hi
    rcases eq_or_ne j i with rfl | hij
    · cases hl : dictLookup T step.tool_name with
      | none => simp [hl, setStep, nth_setIdx_self _ _ _ hi, hs]
      | some td =>
        cases ho : td.execute_func (Ctx.update step.parameters step.context_data) with
        | ok res =>
          cases hr : res.success <;>
            simp [hl, ho, hr, setStep, sendProgressUpdate, updateContextFromResult,
              nth_mapWithIndex, nth_setIdx_self _ _ _ hi2, hs] <;>
          split <;> simp
        | exn msg =>
          simp [hl, ho, setStep, sendProgressUpdate, nth_setIdx_self _ _ _ hi2, hs]
    · cases hl : dictLookup T step.tool_name with
      | none => simp [hl, setStep, nth_setIdx_ne _ _ _ _ (Ne.symm hij)]
      | some td =>
        cases ho : td.execute_func (Ctx.update step.parameters step.context_data) with
        | ok res =>
          cases hr : res.success <;>
            simp [hl, ho, hr, setStep, sendProgressUpdate, updateContextFromResult,
              nth_mapWithIndex, nth_setIdx_ne _ _ _ _ (Ne.symm hij)] <;>
          cases hj : nth st.steps j <;> simp <;> split <;> simp
        | exn msg =>
          simp [hl, ho, setStep, sendProgressUpdate, nth_setIdx_ne _ _ _ _ (Ne.symm hij)]


theorem execStep_name (T : List (String × ToolDefinition)) (cid : String) (N : Nat)
    (st : ExecState) (i j : Nat) :
    (nth (execStep T cid N st i).steps j).map ToolStep.tool_name
      = (nth st.steps j).map ToolStep.tool_name := by
  unfold execStep
  cases hs : nth st.steps i with
  | none => rfl
  | some step =>
    have hi : i < st.steps.length := nth_lt_length _ _ _ hs
    have hi2 : i < (setIdx st.steps i
        { step with status := ToolStepStatus.in_progress, started_at := some st.time }).length := by
      simpa [setIdx_length] using hi
    rcases eq_or_ne j i with rfl | hij
    · cases hl : dictLookup T step.tool_name with
      | none => simp [hl, setStep, nth_setIdx_self _ _ _ hi, hs]
      | some td =>
        cases ho : td.execute_func (Ctx.update step.parameters step.context_data) with
        | ok res =>
          cases hr : res.success <;>
            simp [hl, ho, hr, setStep, sendProgressUpdate, updateContextFromResult,
              nth_mapWithIndex, nth_setIdx_self _ _ _ hi2, hs] <;>
          split <;> simp
        | exn msg =>
          simp [hl, ho, setStep, sendProgressUpdate, nth_setIdx_self _ _ _ hi2, hs]
    · cases hl : dictLookup T step.tool_name with
      | none => simp [hl, setStep, nth_setIdx_ne _ _ _ _ (Ne.symm hij)]
      | some td =>
        cases ho : td.execute_func (Ctx.update step.parameters step.context_data) with
        | ok res =>
          cases hr : res.success <;>
            simp [hl, ho, hr, setStep, sendProgressUpdate, updateContextFromResult,
              nth_mapWithIndex, nth_setIdx_ne _ _ _ _ (Ne.symm hij)] <;>
          cases hj : nth st.steps j <;> simp <;> split <;> simp
        | exn msg =>
          simp [hl, ho, setStep, sendProgressUpdate, nth_setIdx_ne _ _ _ _ (Ne.symm hij)]

theorem execStep_status_ne (T : List (String × ToolDefinition)) (cid : String) (N : Nat)
    (st : ExecState) (i j : Nat) (hij : j ≠ i) :
    (nth (execStep T cid N st i).steps j).map ToolStep.status
      = (nth st.steps j).map ToolStep.status := by
  unfold execStep
  cases hs : nth st.steps i with
  | none => rfl
  | some step =>
    cases hl : dictLookup T step.tool_name with
    | none => simp [hl, setStep, nth_setIdx_ne _ _ _ _ (Ne.symm hij)]
    | some td =>
      cases ho : td.execute_func (Ctx.update step.parameters step.context_data) with
      | ok res =>
        cases hr : res.success <;>
          simp [hl, ho, hr, setStep, sendProgressUpdate, updateContextFromResult,
            nth_mapWithIndex, nth_setIdx_ne _ _ _ _ (Ne.symm hij)] <;>
        cases hj : nth st.steps j <;> simp <;> split <;> simp
      | exn msg =>
        simp [hl, ho, setStep, sendProgressUpdate, nth_setIdx_ne _ _ _ _ (Ne.symm hij)]

theorem execStep_status_self (T : List (String × ToolDefinition)) (cid : String) (N : Nat)
    (st : ExecState) (i : Nat) (hi : i < st.steps.length) :
    ∃ s, nth (execStep T cid N st i).steps i = some s ∧
      (s.status = ToolStepStatus.completed ∨ s.status = ToolStepStatus.failed) := by
  unfold execStep
  obtain ⟨step, hs⟩ := nth_isSome _ _ hi
  have hi2 : i < (setIdx st.steps i
      { step with status := ToolStepStatus.in_progress, started_at := some st.time }).length := by
    simpa [setIdx_length] using hi
  rw [hs]
  cases hl : dictLookup T step.tool_name with
  | none => simp [hl, setStep, nth_setIdx_self _ _ _ hi]
  | some td =>
    cases ho : td.execute_func (Ctx.update step.parameters step.context_data) with
    | ok res =>
      cases hr : res.success <;>
        simp [hl, ho, hr, setStep, sendProgressUpdate, updateContextFromResult,
          nth_mapWithIndex, nth_setIdx_self _ _ _ hi2] <;>
      (try (split <;> simp))
    | exn msg =>
      simp [hl, ho, setStep, sendProgressUpdate, nth_setIdx_self _ _ _ hi2]


theorem execStep_calls_known (T : List (String × ToolDefinition)) (cid : String) (N : Nat)
    (st : ExecState) (i : Nat) (step : ToolStep) (td : ToolDefinition)
    (hs : nth st.steps i = some step) (hl : dictLookup T step.tool_name = some td) :
    (execStep T cid N st i).calls
      = st.calls ++ [(i, step.tool_name, Ctx.update step.parameters step.context_data)] := by
  unfold execStep
  rw [hs]
  cases ho : td.execute_func (Ctx.update step.parameters step.context_data) with
  | ok res =>
    cases hr : res.success <;>
      simp [hl, ho, hr, setStep, sendProgressUpdate, updateContextFromResult]
  | exn msg => simp [hl, ho, setStep, sendProgressUpdate]

theorem execStep_calls_unknown (T : List (String × ToolDefinition)) (cid : String) (N : Nat)
    (st : ExecState) (i : Nat) (step : ToolStep)
    (hs : nth st.steps i = some step) (hl : dictLookup T step.tool_name = none) :
    (execStep T cid N st i).calls = st.calls := by
  unfold execStep
  rw [hs]
  simp [hl, setStep]

theorem execStep_calls_sub (T : List (String × ToolDefinition)) (cid : String) (N : Nat)
    (st : ExecState) (i : Nat) (e : Nat × String × Ctx)
    (he : e ∈ (execStep T cid N st i).calls) : e ∈ st.calls ∨ e.1 = i := by
  cases hs : nth st.steps i with
  | none => rw [execStep_none T cid N st i hs] at he; exact Or.inl he
  | some step =>
    cases hl : dictLookup T step.tool_name with
    | none => rw [execStep_calls_unknown T cid N st i step hs hl] at he; exact Or.inl he
    | some td =>
      rw [execStep_calls_known T cid N st i step td hs hl] at he
      rcases List.mem_append.mp he with h | h
      · exact Or.inl h
      · simp only [List.mem_singleton] at h
        subst h
        exact Or.inr rfl

theorem execStep_updates_unknown (T : List (String × ToolDefinition)) (cid : String) (N : Nat)
    (st : ExecState) (i : Nat) (step : ToolStep)
    (hs : nth st.steps i = some step) (hl : dictLookup T step.tool_name = none) :
    (execStep T cid N st i).updates = st.updates := by
  unfold execStep
  rw [hs]
  simp [hl, setStep]

theorem execStep_pcts_known (T : List (String × ToolDefinition)) (cid : String) (N : Nat)
    (st : ExecState) (i : Nat) (step : ToolStep) (td : ToolDefinition)
    (hs : nth st.steps i = some step) (hl : dictLookup T step.tool_name = some td) :
    pcts (execStep T cid N st i)
      = pcts st ++ [progressPercentage step.step_number N ToolStepStatus.in_progress,
          progressPercentage step.step_number N ToolStepStatus.completed] := by
  unfold execStep
  rw [hs]
  cases ho : td.execute_func (Ctx.update step.parameters step.context_data) with
  | ok res =>
    cases hr : res.success <;>
      simp [hl, ho, hr, setStep, sendProgressUpdate, updateContextFromResult, pcts]
  | exn msg =>
    simp [hl, ho, setStep, sendProgressUpdate, pcts,
      progressPercentage_failed, progressPercentage_completed]


theorem execStep_status_ok (T : List (String × ToolDefinition)) (cid : String) (N : Nat)
    (st : ExecState) (i : Nat) (step : ToolStep) (td : ToolDefinition) (res : ToolResult)
    (hs : nth st.steps i = some step) (hl : dictLookup T step.tool_name = some td)
    (ho : td.execute_func (Ctx.update step.parameters step.context_data) = ToolOutcome.ok res) :
    (nth (execStep T cid N st i).steps i).map ToolStep.status
      = some ToolStepStatus.completed := by
  have hi : i < st.steps.length := nth_lt_length _ _ _ hs
  have hi2 : i < (setIdx st.steps i
      { step with status := ToolStepStatus.in_progress, started_at := some st.time }).length := by
    simpa [setIdx_length] using hi
  unfold execStep
  rw [hs]
  cases hr : res.success <;>
    simp [hl, ho, hr, setStep, sendProgressUpdate, updateContextFromResult,
      nth_mapWithIndex, nth_setIdx_self _ _ _ hi2] <;>
  (try (split <;> simp))

theorem execStep_exn_self (T : List (String × ToolDefinition)) (cid : String) (N : Nat)
    (st : ExecState) (i : Nat) (step : ToolStep) (td : ToolDefinition) (msg : String)
    (hs : nth st.steps i = some step) (hl : dictLookup T step.tool_name = some td)
    (ho : td.execute_func (Ctx.update step.parameters step.context_data) = ToolOutcome.exn msg) :
    nth (execStep T cid N st i).steps i
      = some { step with
          status := ToolStepStatus.failed
          started_at := some st.time
          error_message := some msg
          completed_at := some (st.time + 1) } := by
  have hi : i < st.steps.length := nth_lt_length _ _ _ hs
  have hi2 : i < (setIdx st.steps i
      { step with status := ToolStepStatus.in_progress, started_at := some st.time }).length := by
    simpa [setIdx_length] using hi
  unfold execStep
  rw [hs]
  simp [hl, ho, setStep, sendProgressUpdate, nth_setIdx_self _ _ _ hi2]

theorem execStep_ctx_of_failed (T : List (String × ToolDefinition)) (cid : String) (N : Nat)
    (st : ExecState) (i : Nat)
    (hfail : (nth (execStep T cid N st i).steps i).map ToolStep.status
      = some ToolStepStatus.failed) (j : Nat) :
    (nth (execStep T cid N st i).steps j).map ToolStep.context_data
      = (nth st.steps j).map ToolStep.context_data := by
  cases hs : nth st.steps i with
  | none => rw [execStep_none T cid N st i hs]
  | some step =>
    have hi : i < st.steps.length := nth_lt_length _ _ _ hs
    have hi2 : i < (setIdx st.steps i
        { step with status := ToolStepStatus.in_progress, started_at := some st.time }).length := by
      simpa [setIdx_length] using hi
    cases hl : dictLookup T step.tool_name with
    | none =>
      rcases eq_or_ne j i with rfl | hij
      · unfold execStep
        rw [hs]
        simp [hl, setStep, nth_setIdx_self _ _ _ hi, hs]
      · unfold execStep
        rw [hs]
        simp [hl, setStep, nth_setIdx_ne _ _ _ _ (Ne.symm hij)]
    | some td =>
      cases ho : td.execute_func (Ctx.update step.parameters step.context_data) with
      | ok res =>
        exact absurd (execStep_status_ok T cid N st i step td res hs hl ho ▸ hfail)
          (by simp)
      | exn msg =>
        rcases eq_or_ne j i with rfl | hij
        · unfold execStep
          rw [hs]
          simp [hl, ho, setStep, sendProgressUpdate, nth_setIdx_self _ _ _ hi2, hs]
        · unfold execStep
          rw [hs]
          simp [hl, ho, setStep, sendProgressUpdate, nth_setIdx_ne _ _ _ _ (Ne.symm hij)]

theorem execStep_ctx_tail (T : List (String × ToolDefinition)) (cid : String) (N : Nat)
    (st : ExecState) (i : Nat)
    (hn : ∀ s, nth st.steps i = some s → s.step_number = i + 1) :
    ∃ upd : Ctx → Ctx, ∀ j, i < j →
      (nth (execStep T cid N st i).steps j).map ToolStep.context_data
        = (nth st.steps j).map (fun s => upd s.context_data) := by
  cases hs : nth st.steps i with
  | none =>
    refine ⟨fun c => c, fun j hij => ?_⟩
    rw [execStep_none T cid N st i hs]
  | some step =>
    cases hl : dictLookup T step.tool_name with
    | none =>
      refine ⟨fun c => c, fun j hij => ?_⟩
      unfold execStep
      rw [hs]
      simp [hl, setStep, nth_setIdx_ne _ _ _ _ (Nat.ne_of_lt hij)]
    | some td =>
      cases ho : td.execute_func (Ctx.update step.parameters step.context_data) with
      | ok res =>
        cases hr : res.success
        · refine ⟨fun c => c, fun j hij => ?_⟩
          unfold execStep
          rw [hs]
          simp [hl, ho, hr, setStep, sendProgressUpdate,
            nth_setIdx_ne _ _ _ _ (Nat.ne_of_lt hij)]
        · refine ⟨fun c => Ctx.update c (contextUpdatesFor step.tool_name res),
            fun j hij => ?_⟩
          have hsn : step.step_number = i + 1 := hn step hs
          unfold execStep
          rw [hs]
          simp [hl, ho, hr, setStep, sendProgressUpdate, updateContextFromResult,
            nth_mapWithIndex, nth_setIdx_ne _ _ _ _ (Nat.ne_of_lt hij), hsn]
          cases hj : nth st.steps j <;> simp [show i + 1 ≤ j from hij]
      | exn msg =>
        refine ⟨fun c => c, fun j hij => ?_⟩
        unfold execStep
        rw [hs]
        simp [hl, ho, setStep, sendProgressUpdate,
          nth_setIdx_ne _ _ _ _ (Nat.ne_of_lt hij)]


/-! ### Properties of the step loop of `execute_chain` -/

theorem runSteps_steps_length (T : List (String × ToolDefinition)) (cid : String) (N : Nat) :
    ∀ (n i : Nat) (st : ExecState),
    (runSteps T cid N n i st).steps.length = st.steps.length := by
  intro n
  induction n with
  | zero => intro i st; rfl
  | succ n ih =>
    intro i st
    unfold runSteps
    by_cases hi : i < st.steps.length
    · simp only [hi, if_true]
      cases hnth : nth (execStep T cid N st i).steps i with
      | none => exact execStep_steps_length T cid N st i
      | some s =>
        by_cases hf : s.status = ToolStepStatus.failed
        · simp only [hf, if_true]
          exact execStep_steps_length T cid N st i
        · simp only [hf, if_false]
          rw [ih (i + 1) (execStep T cid N st i)]
          exact execStep_steps_length T cid N st i
    · simp only [hi, if_false]

theorem runSteps_status_lo (T : List (String × ToolDefinition)) (cid : String) (N : Nat) :
    ∀ (n i : Nat) (st : ExecState) (j : Nat), j < i →
    (nth (runSteps T cid N n i st).steps j).map ToolStep.status
      = (nth st.steps j).map ToolStep.status := by
  intro n
  induction n with
  | zero => intro i st j hj; rfl
  | succ n ih =>
    intro i st j hj
    unfold runSteps
    by_cases hi : i < st.steps.length
    · simp only [hi, if_true]
      cases hnth : nth (execStep T cid N st i).steps i with
      | none => exact execStep_status_ne T cid N st i j (Nat.ne_of_lt hj)
      | some s =>
        by_cases hf : s.status = ToolStepStatus.failed
        · simp only [hf, if_true]
          exact execStep_status_ne T cid N st i j (Nat.ne_of_lt hj)
        · simp only [hf, if_false]
          rw [ih (i + 1) (execStep T cid N st i) j (Nat.lt_succ_of_lt hj)]
          exact execStep_status_ne T cid N st i j (Nat.ne_of_lt hj)
    · simp only [hi, if_false]

theorem runSteps_number (T : List (String × ToolDefinition)) (cid : String) (N : Nat) :
    ∀ (n i : Nat) (st : ExecState) (j : Nat),
    (nth (runSteps T cid N n i st).steps j).map ToolStep.step_number
      = (nth st.steps j).map ToolStep.step_number := by
  intro n
  induction n with
  | zero => intro i st j; rfl
  | succ n ih =>
    intro i st j
    unfold runSteps
    by_cases hi : i < st.steps.length
    · simp only [hi, if_true]
      cases hnth : nth (execStep T cid N st i).steps i with
      | none => exact execStep_number T cid N st i j
      | some s =>
        by_cases hf : s.status = ToolStepStatus.failed
        · simp only [hf, if_true]
          exact execStep_number T cid N st i j
        · simp only [hf, if_false]
          rw [ih (i + 1) (execStep T cid N st i) j]
          exact execStep_number T cid N st i j
    · simp only [hi, if_false]


theorem runSteps_fail_char (T : List (String × ToolDefinition)) (cid : String) (N : Nat) :
    ∀ (n i : Nat) (st : ExecState) (k : Nat) (sk : ToolStep),
    st.steps.length ≤ n + i →
    (∀ j s, i ≤ j → nth st.steps j = some s → s.status = ToolStepStatus.pending) →
    i ≤ k →
    nth (runSteps T cid N n i st).steps k = some sk →
    sk.status = ToolStepStatus.failed →
    (∀ j s, i ≤ j → j < k → nth (runSteps T cid N n i st).steps j = some s →
        s.status = ToolStepStatus.completed) ∧
    (∀ j s, k < j → nth (runSteps T cid N n i st).steps j = some s →
        s.status = ToolStepStatus.pending) ∧
    (∀ e, e ∈ (runSteps T cid N n i st).calls → e ∈ st.calls ∨ e.1 ≤ k) := by
  intro n
  induction n with
  | zero =>
    intro i st k sk hlen hpend hik hk hkf
    rw [show runSteps T cid N 0 i st = st from rfl] at hk
    rw [nth_eq_none st.steps k (by omega)] at hk
    exact Option.noConfusion hk
  | succ n ih =>
    intro i st k sk hlen hpend hik hk hkf
    by_cases hi : i < st.steps.length
    case neg =>
      rw [show runSteps T cid N (n + 1) i st = st from by unfold runSteps; simp [hi]] at hk ⊢
      rw [nth_eq_none st.steps k (by omega)] at hk
      exact Option.noConfusion hk
    case pos =>
      obtain ⟨s', hs', hterm⟩ := execStep_status_self T cid N st i hi
      by_cases hf : s'.status = ToolStepStatus.failed
      case pos =>
        have hrun : runSteps T cid N (n + 1) i st = execStep T cid N st i := by
          unfold runSteps
          simp [hi, hs', hf]
        rw [hrun] at hk ⊢
        -- the failed step is exactly position i
        have hki : k = i := by
          by_contra hki
          have hkgt : i < k := lt_of_le_of_ne hik (fun h => hki h.symm)
          have hmap := execStep_status_ne T cid N st i k (Nat.ne_of_gt hkgt)
          rw [hk] at hmap
          obtain ⟨u, hu, hus⟩ := (Option.map_eq_some'.mp hmap.symm)
          have := hpend k u (le_of_lt hkgt) hu
          rw [this] at hus
          rw [← hus] at hkf
          exact ToolStepStatus.noConfusion hkf
        subst hki
        refine ⟨fun j s hij hjk _ => absurd (lt_of_le_of_lt hij hjk) (lt_irrefl _), ?_, ?_⟩
        · intro j s hkj hj
          have hmap := execStep_status_ne T cid N st k j (Nat.ne_of_gt hkj)
          rw [hj] at hmap
          obtain ⟨u, hu, hus⟩ := (Option.map_eq_some'.mp hmap.symm)
          rw [← hus]
          exact hpend j u (le_of_lt hkj) hu
        · intro e he
          rcases execStep_calls_sub T cid N st k e he with h | h
          · exact Or.inl h
          · exact Or.inr (le_of_eq h)
      case neg =>
        have hcomp : s'.status = ToolStepStatus.completed := by
          rcases hterm with h | h
          · exact h
          · exact absurd h hf
        have hrun : runSteps T cid N (n + 1) i st
            = runSteps T cid N n (i + 1) (execStep T cid N st i) := by
          conv_lhs => unfold runSteps
          simp [hi, hs', hf]
        rw [hrun] at hk ⊢
        have hlen' : (execStep T cid N st i).steps.length ≤ n + (i + 1) := by
          rw [execStep_steps_length]
          omega
        have hpend' : ∀ j s, i + 1 ≤ j → nth (execStep T cid N st i).steps j = some s →
            s.status = ToolStepStatus.pending := by
          intro j s hij hj
          have hmap := execStep_status_ne T cid N st i j (by omega)
          rw [hj] at hmap
          obtain ⟨u, hu, hus⟩ := (Option.map_eq_some'.mp hmap.symm)
          rw [← hus]
          exact hpend j u (by omega) hu
        have hik' : i + 1 ≤ k := by
          rcases Nat.lt_or_ge i k with h | h
          · omega
          · exfalso
            have hki : k = i := le_antisymm h hik
            subst hki
            have hmap := runSteps_status_lo T cid N n (k + 1) (execStep T cid N st k) k
              (Nat.lt_succ_self k)
            rw [hk, hs'] at hmap
            have h2 : sk.status = s'.status := by simpa using hmap
            rw [hkf, hcomp] at h2
            exact ToolStepStatus.noConfusion h2
        obtain ⟨ha, hb, hc⟩ := ih (i + 1) (execStep T cid N st i) k sk hlen' hpend' hik' hk hkf
        refine ⟨?_, hb, ?_⟩
        · intro j s hij hjk hj
          rcases Nat.lt_or_ge j (i + 1) with hji | hji
          · have hji : j = i := by omega
            subst hji
            have hmap := runSteps_status_lo T cid N n (j + 1) (execStep T cid N st j) j
              (Nat.lt_succ_self j)
            rw [hj, hs'] at hmap
            have h2 : s.status = s'.status := by simpa using hmap
            rw [h2]
            exact hcomp
          · exact ha j s hji hjk hj
        · intro e he
          rcases hc e he with h | h
          · rcases execStep_calls_sub T cid N st i e h with h2 | h2
            · exact Or.inl h2
            · exact Or.inr (by omega)
          · exact Or.inr h


theorem runSteps_status_set (T : List (String × ToolDefinition)) (cid : String) (N : Nat) :
    ∀ (n i : Nat) (st : ExecState),
    (∀ j s, nth st.steps j = some s → s.status = ToolStepStatus.pending ∨
        s.status = ToolStepStatus.completed ∨ s.status = ToolStepStatus.failed) →
    ∀ j s, nth (runSteps T cid N n i st).steps j = some s →
      s.status = ToolStepStatus.pending ∨ s.status = ToolStepStatus.completed ∨
        s.status = ToolStepStatus.failed := by
  intro n
  induction n with
  | zero => intro i st hset j s hj; exact hset j s hj
  | succ n ih =>
    intro i st hset j s hj
    by_cases hi : i < st.steps.length
    case neg =>
      rw [show runSteps T cid N (n + 1) i st = st from by unfold runSteps; simp [hi]] at hj
      exact hset j s hj
    case pos =>
      obtain ⟨s', hs', hterm⟩ := execStep_status_self T cid N st i hi
      have hset' : ∀ j s, nth (execStep T cid N st i).steps j = some s →
          s.status = ToolStepStatus.pending ∨ s.status = ToolStepStatus.completed ∨
            s.status = ToolStepStatus.failed := by
        intro j2 s2 hj2
        rcases eq_or_ne j2 i with rfl | hne
        · rw [hj2] at hs'
          cases Option.some.inj hs'
          rcases hterm with h | h
          · exact Or.inr (Or.inl h)
          · exact Or.inr (Or.inr h)
        · have hmap := execStep_status_ne T cid N st i j2 hne
          rw [hj2] at hmap
          obtain ⟨u, hu, hus⟩ := (Option.map_eq_some'.mp hmap.symm)
          rw [← hus]
          exact hset j2 u hu
      by_cases hf : s'.status = ToolStepStatus.failed
      · rw [show runSteps T cid N (n + 1) i st = execStep T cid N st i from by
          conv_lhs => unfold runSteps
          simp [hi, hs', hf]] at hj
        exact hset' j s hj
      · rw [show runSteps T cid N (n + 1) i st
            = runSteps T cid N n (i + 1) (execStep T cid N st i) from by
          conv_lhs => unfold runSteps
          simp [hi, hs', hf]] at hj
        exact ih (i + 1) (execStep T cid N st i) hset' j s hj

theorem runSteps_processes_first (T : List (String × ToolDefinition)) (cid : String) (N : Nat)
    (n i : Nat) (st : ExecState) (hi : i < st.steps.length) (hn : 1 ≤ n) :
    ∃ s, nth (runSteps T cid N n i st).steps i = some s ∧
      (s.status = ToolStepStatus.completed ∨ s.status = ToolStepStatus.failed) := by
  cases n with
  | zero => omega
  | succ n =>
    obtain ⟨s', hs', hterm⟩ := execStep_status_self T cid N st i hi
    by_cases hf : s'.status = ToolStepStatus.failed
    · rw [show runSteps T cid N (n + 1) i st = execStep T cid N st i from by
        conv_lhs => unfold runSteps
        simp [hi, hs', hf]]
      exact ⟨s', hs', hterm⟩
    · rw [show runSteps T cid N (n + 1) i st
          = runSteps T cid N n (i + 1) (execStep T cid N st i) from by
        conv_lhs => unfold runSteps
        simp [hi, hs', hf]]
      have hmap := runSteps_status_lo T cid N n (i + 1) (execStep T cid N st i) i
        (Nat.lt_succ_self i)
      rw [hs'] at hmap
      obtain ⟨u, hu, hus⟩ := (Option.map_eq_some'.mp hmap)
      exact ⟨u, hu, by rw [hus]; exact hterm⟩


theorem runSteps_ctx_last (T : List (String × ToolDefinition)) (cid : String) (N : Nat) :
    ∀ (n i : Nat) (st : ExecState),
    st.steps.length ≤ n + i →
    (∀ j s, i ≤ j → nth st.steps j = some s → s.status = ToolStepStatus.pending) →
    (∀ j s, nth st.steps j = some s → s.step_number = j + 1) →
    (∀ j₁ j₂ s₁ s₂, i ≤ j₁ → i ≤ j₂ → nth st.steps j₁ = some s₁ →
        nth st.steps j₂ = some s₂ → s₁.context_data = s₂.context_data) →
    ∀ p sp, i ≤ p → nth (runSteps T cid N n i st).steps p = some sp →
      sp.status ≠ ToolStepStatus.pending →
      (∀ j s, p < j → nth (runSteps T cid N n i st).steps j = some s →
          s.status = ToolStepStatus.pending) →
      ∀ q sq, p ≤ q → nth (runSteps T cid N n i st).steps q = some sq →
        sq.context_data = sp.context_data := by
  intro n
  induction n with
  | zero =>
    intro i st hlen hpend hnum hctx p sp hip hp hpnp hlast q sq hpq hq
    exfalso
    rw [show runSteps T cid N 0 i st = st from rfl] at hp
    rw [nth_eq_none st.steps p (by omega)] at hp
    exact Option.noConfusion hp
  | succ n ih =>
    intro i st hlen hpend hnum hctx p sp hip hp hpnp hlast q sq hpq hq
    by_cases hi : i < st.steps.length
    case neg =>
      exfalso
      rw [show runSteps T cid N (n + 1) i st = st from by unfold runSteps; simp [hi]] at hp
      rw [nth_eq_none st.steps p (by omega)] at hp
      exact Option.noConfusion hp
    case pos =>
      obtain ⟨s', hs', hterm⟩ := execStep_status_self T cid N st i hi
      by_cases hf : s'.status = ToolStepStatus.failed
      case pos =>
        have hrun : runSteps T cid N (n + 1) i st = execStep T cid N st i := by
          conv_lhs => unfold runSteps
          simp [hi, hs', hf]
        rw [hrun] at hp hq
        have hfail : (nth (execStep T cid N st i).steps i).map ToolStep.status
            = some ToolStepStatus.failed := by
          rw [hs']
          simp [hf]
        have hcq := execStep_ctx_of_failed T cid N st i hfail q
        have hcp := execStep_ctx_of_failed T cid N st i hfail p
        rw [hq] at hcq
        rw [hp] at hcp
        obtain ⟨uq, huq, huqc⟩ := (Option.map_eq_some'.mp hcq.symm)
        obtain ⟨up, hup, hupc⟩ := (Option.map_eq_some'.mp hcp.symm)
        rw [← huqc, ← hupc]
        exact hctx q p uq up (by omega) hip huq hup
      case neg =>
        have hcomp : s'.status = ToolStepStatus.completed := by
          rcases hterm with h | h
          · exact h
          · exact absurd h hf
        have hrun : runSteps T cid N (n + 1) i st
            = runSteps T cid N n (i + 1) (execStep T cid N st i) := by
          conv_lhs => unfold runSteps
          simp [hi, hs', hf]
        rw [hrun] at hp hq hlast
        have hlen' : (execStep T cid N st i).steps.length ≤ n + (i + 1) := by
          rw [execStep_steps_length]
          omega
        have hpend' : ∀ j s, i + 1 ≤ j → nth (execStep T cid N st i).steps j = some s →
            s.status = ToolStepStatus.pending := by
          intro j s hij hj
          have hmap := execStep_status_ne T cid N st i j (by omega)
          rw [hj] at hmap
          obtain ⟨u, hu, hus⟩ := (Option.map_eq_some'.mp hmap.symm)
          rw [← hus]
          exact hpend j u (by omega) hu
        have hnum' : ∀ j s, nth (execStep T cid N st i).steps j = some s →
            s.step_number = j + 1 := by
          intro j s hj
          have hmap := execStep_number T cid N st i j
          rw [hj] at hmap
          obtain ⟨u, hu, hus⟩ := (Option.map_eq_some'.mp hmap.symm)
          rw [← hus]
          exact hnum j u hu
        have hctx' : ∀ j₁ j₂ s₁ s₂, i + 1 ≤ j₁ → i + 1 ≤ j₂ →
            nth (execStep T cid N st i).steps j₁ = some s₁ →
            nth (execStep T cid N st i).steps j₂ = some s₂ →
            s₁.context_data = s₂.context_data := by
          obtain ⟨upd, hupd⟩ := execStep_ctx_tail T cid N st i (fun s hsi => hnum i s hsi)
          intro j₁ j₂ s₁ s₂ h₁ h₂ hj₁ hj₂
          have hm₁ := hupd j₁ (by omega)
          have hm₂ := hupd j₂ (by omega)
          rw [hj₁] at hm₁
          rw [hj₂] at hm₂
          obtain ⟨u₁, hu₁, hu₁c⟩ := (Option.map_eq_some'.mp hm₁.symm)
          obtain ⟨u₂, hu₂, hu₂c⟩ := (Option.map_eq_some'.mp hm₂.symm)
          rw [← hu₁c, ← hu₂c, hctx j₁ j₂ u₁ u₂ (by omega) (by omega) hu₁ hu₂]
      -- p is at least i + 1 unless the plan ends at i
        by_cases hip1 : i + 1 ≤ p
        · exact ih (i + 1) (execStep T cid N st i) hlen' hpend' hnum' hctx' p sp hip1 hp
            hpnp hlast q sq hpq hq
        · have hpi : p = i := by omega
          subst hpi
          by_cases hlast1 : p + 1 < st.steps.length
          · exfalso
            have hlen2 : p + 1 < (execStep T cid N st p).steps.length := by
              rw [execStep_steps_length]
              exact hlast1
            obtain ⟨u, hu, huterm⟩ := runSteps_processes_first T cid N n (p + 1)
              (execStep T cid N st p) hlen2 (by omega)
            have := hlast (p + 1) u (Nat.lt_succ_self p) hu
            rcases huterm with h | h <;> rw [this] at h <;> exact ToolStepStatus.noConfusion h
          · have hqlt : q < st.steps.length := by
              have h1 := runSteps_steps_length T cid N n (p + 1) (execStep T cid N st p)
              have h2 := execStep_steps_length T cid N st p
              have := nth_lt_length _ _ _ hq
              omega
            have hqp : q = p := by omega
            subst hqp
            rw [hp] at hq
            cases Option.some.inj hq
            rfl


theorem runSteps_exn_char (T : List (String × ToolDefinition)) (cid : String) (N : Nat)
    (msg : String) :
    ∀ (n i : Nat) (st : ExecState) (k : Nat),
    st.steps.length ≤ n + i →
    (∀ j s, i ≤ j → nth st.steps j = some s → s.status = ToolStepStatus.pending) →
    i ≤ k → k < st.steps.length →
    (∀ j s, i ≤ j → j < k → nth st.steps j = some s →
        ∃ td, dictLookup T s.tool_name = some td ∧
          ∀ c, ∃ r, td.execute_func c = ToolOutcome.ok r) →
    (∀ s, nth st.steps k = some s →
        ∃ td, dictLookup T s.tool_name = some td ∧
          ∀ c, td.execute_func c = ToolOutcome.exn msg) →
    ∃ sk, nth (runSteps T cid N n i st).steps k = some sk ∧
      sk.status = ToolStepStatus.failed ∧
      sk.error_message = some msg ∧
      (∃ t, sk.completed_at = some t) ∧
      (∀ j s, k < j → nth (runSteps T cid N n i st).steps j = some s →
          s.status = ToolStepStatus.pending) ∧
      (∀ e, e ∈ (runSteps T cid N n i st).calls → e ∈ st.calls ∨ e.1 ≤ k) := by
  intro n
  induction n with
  | zero =>
    intro i st k hlen hpend hik hklen hok hexn
    omega
  | succ n ih =>
    intro i st k hlen hpend hik hklen hok hexn
    have hi : i < st.steps.length := by omega
    obtain ⟨stepi, hsi⟩ := nth_isSome st.steps i hi
    rcases eq_or_ne i k with rfl | hne
    case inl =>
      -- the raising step: executed now, chain stops
      obtain ⟨td, htd, hraise⟩ := hexn stepi hsi
      have ho := hraise (Ctx.update stepi.parameters stepi.context_data)
      have hself := execStep_exn_self T cid N st i stepi td msg hsi htd ho
      have hrun : runSteps T cid N (n + 1) i st = execStep T cid N st i := by
        conv_lhs => unfold runSteps
        simp [hi, hself]
      rw [hrun]
      refine ⟨_, hself, rfl, rfl, ⟨st.time + 1, rfl⟩, ?_, ?_⟩
      · intro j s hkj hj
        have hmap := execStep_status_ne T cid N st i j (by omega)
        rw [hj] at hmap
        obtain ⟨u, hu, hus⟩ := (Option.map_eq_some'.mp hmap.symm)
        rw [← hus]
        exact hpend j u (by omega) hu
      · intro e he
        rcases execStep_calls_sub T cid N st i e he with h | h
        · exact Or.inl h
        · exact Or.inr (le_of_eq h)
    case inr =>
      have hiklt : i < k := lt_of_le_of_ne hik hne
      -- the current step succeeds and the loop moves on
      obtain ⟨td, htd, hokfun⟩ := hok i stepi (le_refl i) hiklt hsi
      obtain ⟨r, hr⟩ := hokfun (Ctx.update stepi.parameters stepi.context_data)
      have hstat := execStep_status_ok T cid N st i stepi td r hsi htd hr
      obtain ⟨s', hs', hs'c⟩ := (Option.map_eq_some'.mp hstat)
      have hrun : runSteps T cid N (n + 1) i st
          = runSteps T cid N n (i + 1) (execStep T cid N st i) := by
        conv_lhs => unfold runSteps
        simp [hi, hs', hs'c]
      rw [hrun]
      have hlen' : (execStep T cid N st i).steps.length ≤ n + (i + 1) := by
        rw [execStep_steps_length]
        omega
      have hklen' : k < (execStep T cid N st i).steps.length := by
        rw [execStep_steps_length]
        exact hklen
      have hpend' : ∀ j s, i + 1 ≤ j → nth (execStep T cid N st i).steps j = some s →
          s.status = ToolStepStatus.pending := by
        intro j s hij hj
        have hmap := execStep_status_ne T cid N st i j (by omega)
        rw [hj] at hmap
        obtain ⟨u, hu, hus⟩ := (Option.map_eq_some'.mp hmap.symm)
        rw [← hus]
        exact hpend j u (by omega) hu
      have hname : ∀ j s, nth (execStep T cid N st i).steps j = some s →
          ∃ u, nth st.steps j = some u ∧ u.tool_name = s.tool_name := by
        intro j s hj
        have hmap := execStep_name T cid N st i j
        rw [hj] at hmap
        obtain ⟨u, hu, hus⟩ := (Option.map_eq_some'.mp hmap.symm)
        exact ⟨u, hu, hus⟩
      have hok' : ∀ j s, i + 1 ≤ j → j < k → nth (execStep T cid N st i).steps j = some s →
          ∃ td2, dictLookup T s.tool_name = some td2 ∧
            ∀ c, ∃ r2, td2.execute_func c = ToolOutcome.ok r2 := by
        intro j s hij hjk hj
        obtain ⟨u, hu, hus⟩ := hname j s hj
        rw [← hus]
        exact hok j u (by omega) hjk hu
      have hexn' : ∀ s, nth (execStep T cid N st i).steps k = some s →
          ∃ td2, dictLookup T s.tool_name = some td2 ∧
            ∀ c, td2.execute_func c = ToolOutcome.exn msg := by
        intro s hj
        obtain ⟨u, hu, hus⟩ := hname k s hj
        rw [← hus]
        exact hexn u hu
      obtain ⟨sk, hsk, h1, h2, h3, h4, h5⟩ :=
        ih (i + 1) (execStep T cid N st i) k hlen' hpend' (by omega) hklen' hok' hexn'
      refine ⟨sk, hsk, h1, h2, h3, h4, ?_⟩
      intro e he
      rcases h5 e he with h | h
      · rcases execStep_calls_sub T cid N st i e h with h2 | h2
        · exact Or.inl h2
        · exact Or.inr (by omega)
      · exact Or.inr h


theorem Ctx.update_of_right {a b : Ctx} {k : String} {v : Val} (h : b k = some v) :
    Ctx.update a b k = some v := by
  unfold Ctx.update
  rw [h]

theorem Ctx.update_of_right_none {a b : Ctx} {k : String} (h : b k = none) :
    Ctx.update a b k = a k := by
  unfold Ctx.update
  rw [h]

theorem Ctx.update_none_iff {a b : Ctx} {k : String} :
    Ctx.update a b k = none ↔ a k = none ∧ b k = none := by
  unfold Ctx.update
  cases hb : b k with
  | none => simp
  | some v => simp

theorem execStep_ctx_merge (T : List (String × ToolDefinition)) (cid : String) (N : Nat)
    (st : ExecState) (i : Nat) (step : ToolStep) (td : ToolDefinition) (res : ToolResult)
    (hs : nth st.steps i = some step) (hn : step.step_number = i + 1)
    (hl : dictLookup T step.tool_name = some td)
    (ho : td.execute_func (Ctx.update step.parameters step.context_data) = ToolOutcome.ok res)
    (hr : res.success = true) :
    (∀ j, j ≤ i →
        (nth (execStep T cid N st i).steps j).map ToolStep.context_data
          = (nth st.steps j).map ToolStep.context_data) ∧
    (∀ j s s2, i < j → nth st.steps j = some s →
        nth (execStep T cid N st i).steps j = some s2 →
        s2.context_data
          = Ctx.update s.context_data (contextUpdatesFor step.tool_name res)) := by
  have hi : i < st.steps.length := nth_lt_length _ _ _ hs
  have hi2 : i < (setIdx st.steps i
      { step with status := ToolStepStatus.in_progress, started_at := some st.time }).length := by
    simpa [setIdx_length] using hi
  constructor
  · intro j hj
    rcases eq_or_ne j i with rfl | hne
    · unfold execStep
      rw [hs]
      simp [hl, ho, hr, setStep, sendProgressUpdate, updateContextFromResult,
        nth_mapWithIndex, hn, hs]
      refine ⟨_, nth_setIdx_self _ _ _ ?_, rfl⟩
      simpa [setIdx_length] using hi
    · have hji : j < i := lt_of_le_of_ne hj hne
      unfold execStep
      rw [hs]
      simp [hl, ho, hr, setStep, sendProgressUpdate, updateContextFromResult,
        nth_mapWithIndex, nth_setIdx_ne _ _ _ _ (Nat.ne_of_gt hji), hn]
      cases hnj : nth st.steps j <;> simp [show ¬ (i + 1 ≤ j) from by omega]
  · intro j s s2 hij hj hj2
    unfold execStep at hj2
    rw [hs] at hj2
    simp [hl, ho, hr, setStep, sendProgressUpdate, updateContextFromResult,
      nth_mapWithIndex, nth_setIdx_ne _ _ _ _ (Nat.ne_of_lt hij), hn, hj,
      show i + 1 ≤ j from hij] at hj2
    rw [← hj2]


theorem execStep_unknown_self (T : List (String × ToolDefinition)) (cid : String) (N : Nat)
    (st : ExecState) (i : Nat) (step : ToolStep)
    (hs : nth st.steps i = some step) (hl : dictLookup T step.tool_name = none) :
    nth (execStep T cid N st i).steps i
      = some { step with
          status := ToolStepStatus.failed
          error_message := some ("Tool not available: " ++ step.tool_name) } := by
  have hi := nth_lt_length _ _ _ hs
  unfold execStep
  rw [hs]
  simp [hl, setStep, nth_setIdx_self _ _ _ hi]

theorem execStep_pcts_cases (T : List (String × ToolDefinition)) (cid : String) (N : Nat)
    (st : ExecState) (i : Nat) :
    pcts (execStep T cid N st i) = pcts st ∨
    (∃ sn, (nth st.steps i).map ToolStep.step_number = some sn ∧
      pcts (execStep T cid N st i)
        = pcts st ++ [progressPercentage sn N ToolStepStatus.in_progress,
            progressPercentage sn N ToolStepStatus.completed]) := by
  cases hs : nth st.steps i with
  | none => exact Or.inl (by rw [execStep_none T cid N st i hs])
  | some step =>
    cases hl : dictLookup T step.tool_name with
    | none =>
      refine Or.inl ?_
      unfold pcts
      rw [execStep_updates_unknown T cid N st i step hs hl]
    | some td =>
      refine Or.inr ⟨step.step_number, by simp [hs], ?_⟩
      exact execStep_pcts_known T cid N st i step td hs hl

theorem cast_succ_sub_one (i : Nat) : (((i + 1 : Nat) : ℚ) - 1) = (i : ℚ) := by
  push_cast
  ring

theorem pp_succ_in_progress (i N : Nat) :
    progressPercentage (i + 1) N ToolStepStatus.in_progress
      = pymin (((i : ℚ) / (N : ℚ)) * 100 + 10) 100 := by
  rw [progressPercentage_in_progress, cast_succ_sub_one]

theorem pp_mono1 (i N : Nat) :
    pymin (((i : ℚ) / (N : ℚ)) * 100) 100 ≤ pymin (((i : ℚ) / (N : ℚ)) * 100 + 10) 100 := by
  rw [pymin_eq_min, pymin_eq_min]
  exact min_le_min (by linarith) le_rfl

theorem pp_mono2 (i N : Nat) (h0 : 0 < N) (h10 : N ≤ 10) :
    pymin (((i : ℚ) / (N : ℚ)) * 100 + 10) 100
      ≤ pymin ((((i + 1 : Nat) : ℚ) / (N : ℚ)) * 100) 100 := by
  rw [pymin_eq_min, pymin_eq_min]
  apply min_le_min _ le_rfl
  have hN : (0 : ℚ) < (N : ℚ) := by exact_mod_cast h0
  have h1 : (10 : ℚ) ≤ 100 / (N : ℚ) := by
    rw [le_div_iff hN]
    have : (N : ℚ) ≤ 10 := by exact_mod_cast h10
    linarith
  have h2 : (((i + 1 : Nat) : ℚ)) = (i : ℚ) + 1 := by push_cast; ring
  rw [h2, add_div, add_mul]
  have h3 : (1 / (N : ℚ)) * 100 = 100 / (N : ℚ) := by ring
  rw [h3]
  linarith

theorem pp_numer_mono (i N : Nat) :
    pymin (((i : ℚ) / (N : ℚ)) * 100) 100
      ≤ pymin ((((i + 1 : Nat) : ℚ) / (N : ℚ)) * 100) 100 := by
  rw [pymin_eq_min, pymin_eq_min]
  apply min_le_min _ le_rfl
  rcases Nat.eq_zero_or_pos N with hN | hN
  · subst hN
    norm_num
  · have hNq : (0 : ℚ) < (N : ℚ) := by exact_mod_cast hN
    have hle : ((i : ℚ)) ≤ (((i + 1 : Nat) : ℚ)) := by exact_mod_cast Nat.le_succ i
    exact mul_le_mul_of_nonneg_right ((div_le_div_right hNq).mpr hle) (by norm_num)

theorem chain_append_two {l : List ℚ} {a b : ℚ}
    (hl : List.Chain' (· ≤ ·) l)
    (hla : ∀ x, l.getLast? = some x → x ≤ a) (hab : a ≤ b) :
    List.Chain' (· ≤ ·) (l ++ [a, b]) := by
  rw [List.chain'_append]
  refine ⟨hl, by simp [List.chain'_cons, hab], ?_⟩
  intro x hx y hy
  simp only [List.head?_cons, Option.mem_def, Option.some.injEq] at hy
  subst hy
  exact hla x (Option.mem_def.mp hx)

theorem getLast_append_two {l : List ℚ} {a b : ℚ} : (l ++ [a, b]).getLast? = some b := by
  induction l with
  | nil => rfl
  | cons c l ih =>
    rw [List.cons_append]
    cases hcl : l ++ [a, b] with
    | nil => exact absurd hcl (by simp)
    | cons d rest =>
      rw [List.getLast?_cons_cons]
      rw [← hcl, ih]


theorem runSteps_pcts_bounds (T : List (String × ToolDefinition)) (cid : String) (N : Nat) :
    ∀ (n i : Nat) (st : ExecState),
    (∀ j s, nth st.steps j = some s → s.step_number = j + 1) →
    (∀ x, x ∈ pcts st → 0 ≤ x ∧ x ≤ 100) →
    ∀ x, x ∈ pcts (runSteps T cid N n i st) → 0 ≤ x ∧ x ≤ 100 := by
  intro n
  induction n with
  | zero => intro i st hnum hbd x hx; exact hbd x hx
  | succ n ih =>
    intro i st hnum hbd x hx
    by_cases hi : i < st.steps.length
    case neg =>
      rw [show runSteps T cid N (n + 1) i st = st from by unfold runSteps; simp [hi]] at hx
      exact hbd x hx
    case pos =>
      have hnum' : ∀ j s, nth (execStep T cid N st i).steps j = some s →
          s.step_number = j + 1 := by
        intro j s hj
        have hmap := execStep_number T cid N st i j
        rw [hj] at hmap
        obtain ⟨u, hu, hus⟩ := (Option.map_eq_some'.mp hmap.symm)
        rw [← hus]
        exact hnum j u hu
      have hbd' : ∀ x, x ∈ pcts (execStep T cid N st i) → 0 ≤ x ∧ x ≤ 100 := by
        intro y hy
        rcases execStep_pcts_cases T cid N st i with hcase | ⟨sn, hsn, hcase⟩
        · rw [hcase] at hy
          exact hbd y hy
        · rw [hcase] at hy
          rcases List.mem_append.mp hy with h | h
          · exact hbd y h
          · obtain ⟨u, hu, husn⟩ := Option.map_eq_some'.mp hsn
            have hsn1 : 1 ≤ sn := by
              rw [← husn, hnum i u hu]
              omega
            rcases List.mem_cons.mp h with rfl | h2
            · exact ⟨progressPercentage_nonneg sn N _ hsn1, progressPercentage_le_100 sn N _⟩
            · rcases List.mem_singleton.mp h2 with rfl
              exact ⟨progressPercentage_nonneg sn N _ hsn1, progressPercentage_le_100 sn N _⟩
      obtain ⟨s', hs', hterm⟩ := execStep_status_self T cid N st i hi
      by_cases hf : s'.status = ToolStepStatus.failed
      · rw [show runSteps T cid N (n + 1) i st = execStep T cid N st i from by
          conv_lhs => unfold runSteps
          simp [hi, hs', hf]] at hx
        exact hbd' x hx
      · rw [show runSteps T cid N (n + 1) i st
            = runSteps T cid N n (i + 1) (execStep T cid N st i) from by
          conv_lhs => unfold runSteps
          simp [hi, hs', hf]] at hx
        exact ih (i + 1) (execStep T cid N st i) hnum' hbd' x hx

theorem runSteps_pcts_chain (T : List (String × ToolDefinition)) (cid : String) (N : Nat) :
    ∀ (n i : Nat) (st : ExecState),
    st.steps.length = N → N ≤ 10 →
    (∀ j s, nth st.steps j = some s → s.step_number = j + 1) →
    List.Chain' (· ≤ ·) (pcts st) →
    (∀ x, (pcts st).getLast? = some x → x ≤ pymin (((i : ℚ) / (N : ℚ)) * 100) 100) →
    List.Chain' (· ≤ ·) (pcts (runSteps T cid N n i st)) := by
  intro n
  induction n with
  | zero => intro i st hN h10 hnum hch hla; exact hch
  | succ n ih =>
    intro i st hN h10 hnum hch hla
    by_cases hi : i < st.steps.length
    case neg =>
      rw [show runSteps T cid N (n + 1) i st = st from by unfold runSteps; simp [hi]]
      exact hch
    case pos =>
      have h0N : 0 < N := by omega
      obtain ⟨stepi, hsi⟩ := nth_isSome st.steps i hi
      have hsn : stepi.step_number = i + 1 := hnum i stepi hsi
      -- characterize the percentages appended by this step
      have hnum' : ∀ j s, nth (execStep T cid N st i).steps j = some s →
          s.step_number = j + 1 := by
        intro j s hj
        have hmap := execStep_number T cid N st i j
        rw [hj] at hmap
        obtain ⟨u, hu, hus⟩ := (Option.map_eq_some'.mp hmap.symm)
        rw [← hus]
        exact hnum j u hu
      have hN' : (execStep T cid N st i).steps.length = N := by
        rw [execStep_steps_length]
        exact hN
      have hch' : List.Chain' (· ≤ ·) (pcts (execStep T cid N st i)) := by
        rcases execStep_pcts_cases T cid N st i with hcase | ⟨sn, hsn2, hcase⟩
        · rw [hcase]; exact hch
        · rw [hsi] at hsn2
          have hsn2' : stepi.step_number = sn := by simpa using hsn2
          rw [hcase, ← hsn2', hsn, pp_succ_in_progress, progressPercentage_completed]
          exact chain_append_two hch
            (fun x hx => le_trans (hla x hx) (pp_mono1 i N))
            (pp_mono2 i N h0N h10)
      have hla' : ∀ x, (pcts (execStep T cid N st i)).getLast? = some x →
          x ≤ pymin ((((i + 1 : Nat) : ℚ) / (N : ℚ)) * 100) 100 := by
        rcases execStep_pcts_cases T cid N st i with hcase | ⟨sn, hsn2, hcase⟩
        · intro x hx
          rw [hcase] at hx
          exact le_trans (hla x hx) (pp_numer_mono i N)
        · intro x hx
          rw [hsi] at hsn2
          have hsn2' : stepi.step_number = sn := by simpa using hsn2
          rw [hcase, ← hsn2', hsn] at hx
          rw [getLast_append_two] at hx
          cases Option.some.inj hx
          rw [progressPercentage_completed]
      obtain ⟨s', hs', hterm⟩ := execStep_status_self T cid N st i hi
      by_cases hf : s'.status = ToolStepStatus.failed
      · rw [show runSteps T cid N (n + 1) i st = execStep T cid N st i from by
          conv_lhs => unfold runSteps
          simp [hi, hs', hf]]
        exact hch'
      · rw [show runSteps T cid N (n + 1) i st
            = runSteps T cid N n (i + 1) (execStep T cid N st i) from by
          conv_lhs => unfold runSteps
          simp [hi, hs', hf]]
        exact ih (i + 1) (execStep T cid N st i) hN' h10 hnum' hch' hla'


/-! ### Helper: status-set facts about a whole `execute_chain` run -/

theorem is_successful_iff (steps : List ToolStep)
    (hset : ∀ s ∈ steps, s.status = ToolStepStatus.pending ∨
        s.status = ToolStepStatus.completed ∨ s.status = ToolStepStatus.failed) :
    (is_successful steps = true ↔ ∀ s ∈ steps, s.status = ToolStepStatus.completed) ∧
    (is_successful steps = true ↔
      ((∀ s ∈ steps, isTerminal s.status = true) ∧
        (∀ s ∈ steps, s.status ≠ ToolStepStatus.failed))) := by
  have h1 : (is_complete steps = true) ↔ ∀ s ∈ steps, isTerminal s.status = true := by
    simp [is_complete, List.all_eq_true]
  have h2 : (failed_steps steps = 0) ↔ ∀ s ∈ steps, s.status ≠ ToolStepStatus.failed := by
    rw [failed_steps, List.length_eq_zero, List.filter_eq_nil]
    simp
  have hmain : is_successful steps = true ↔
      ((∀ s ∈ steps, isTerminal s.status = true) ∧
        (∀ s ∈ steps, s.status ≠ ToolStepStatus.failed)) := by
    rw [is_successful, Bool.and_eq_true, h1]
    constructor
    · rintro ⟨ha, hb⟩
      exact ⟨ha, h2.mp (by simpa using hb)⟩
    · rintro ⟨ha, hb⟩
      exact ⟨ha, by simpa using h2.mpr hb⟩
  refine ⟨?_, hmain⟩
  rw [hmain]
  constructor
  · rintro ⟨ha, hb⟩ s hsmem
    rcases hset s hsmem with h | h | h
    · have := ha s hsmem
      rw [h] at this
      exact absurd this (by simp [isTerminal])
    · exact h
    · exact absurd h (hb s hsmem)
  · intro hall
    constructor
    · intro s hsmem
      rw [hall s hsmem]
      rfl
    · intro s hsmem
      rw [hall s hsmem]
      intro hcon
      exact ToolStepStatus.noConfusion hcon


theorem execute_chain_snd (tools : List (String × ToolDefinition)) (plan : ToolChainPlan)
    (session : Ctx) :
    (execute_chain tools plan session).2
      = runSteps tools plan.chain_id plan.total_steps
          (plan.steps.map
            (fun s => { s with context_data := Ctx.update s.context_data session })).length 0
          { steps := plan.steps.map
              (fun s => { s with context_data := Ctx.update s.context_data session }),
            time := 0, updates := [], calls := [] } := rfl

theorem execute_chain_fst_steps (tools : List (String × ToolDefinition)) (plan : ToolChainPlan)
    (session : Ctx) :
    (execute_chain tools plan session).1.steps
      = (execute_chain tools plan session).2.steps := rfl

theorem execute_chain_fst_success (tools : List (String × ToolDefinition))
    (plan : ToolChainPlan) (session : Ctx) :
    (execute_chain tools plan session).1.success
      = is_successful (execute_chain tools plan session).2.steps := rfl

theorem execute_chain_fst_ctx (tools : List (String × ToolDefinition)) (plan : ToolChainPlan)
    (session : Ctx) :
    (execute_chain tools plan session).1.context_data
      = extractFinalContext (execute_chain tools plan session).2.steps := rfl

theorem nth_merged (plan : ToolChainPlan) (session : Ctx) (j : Nat) (s : ToolStep)
    (h : nth (plan.steps.map
        (fun s => { s with context_data := Ctx.update s.context_data session })) j = some s) :
    ∃ u, nth plan.steps j = some u ∧
      s = { u with context_data := Ctx.update u.context_data session } := by
  rw [nth_map] at h
  obtain ⟨u, hu, hus⟩ := Option.map_eq_some'.mp h
  exact ⟨u, hu, hus.symm⟩

/-- Claim C2: For every plan of N pending steps run by `execute_chain` in which the
step at (0-based) position k ends with status Failed: every earlier step ends
Completed, every later step still has status Pending, and no tool function of a
later step is ever invoked (every logged invocation has index ≤ k). -/
theorem claim_C2 (tools : List (String × ToolDefinition)) (plan : ToolChainPlan)
    (session : Ctx) (k : Nat) (sk : ToolStep)
    (hpend : ∀ s ∈ plan.steps, s.status = ToolStepStatus.pending)
    (hk : nth (execute_chain tools plan session).1.steps k = some sk)
    (hkf : sk.status = ToolStepStatus.failed) :
    (∀ j s, j < k → nth (execute_chain tools plan session).1.steps j = some s →
        s.status = ToolStepStatus.completed) ∧
    (∀ j s, k < j → nth (execute_chain tools plan session).1.steps j = some s →
        s.status = ToolStepStatus.pending) ∧
    (∀ e ∈ (execute_chain tools plan session).2.calls, e.1 ≤ k) := by
  have hpend0 : ∀ j s, 0 ≤ j → nth (plan.steps.map
      (fun s => { s with context_data := Ctx.update s.context_data session })) j = some s →
      s.status = ToolStepStatus.pending := by
    intro j s _ hj
    obtain ⟨u, hu, rfl⟩ := nth_merged plan session j s hj
    exact hpend u (nth_mem _ _ _ hu)
  rw [execute_chain_fst_steps, execute_chain_snd] at hk ⊢
  obtain ⟨ha, hb, hc⟩ := runSteps_fail_char tools plan.chain_id plan.total_steps
    (plan.steps.map
      (fun s => { s with context_data := Ctx.update s.context_data session })).length 0
    { steps := plan.steps.map
        (fun s => { s with context_data := Ctx.update s.context_data session }),
      time := 0, updates := [], calls := [] }
    k sk (by simp) hpend0 (Nat.zero_le k) hk hkf
  refine ⟨fun j s hjk hj => ha j s (Nat.zero_le j) hjk hj, hb, ?_⟩
  intro e he
  rcases hc e he with h | h
  · exact absurd h (List.not_mem_nil e)
  · exact h

/-- Witness for C2 at a concrete three-step plan whose second tool raises. -/
theorem claim_C2_witness :
    (∀ j s, j < 1 → nth (execute_chain demoTools planBoom Ctx.empty).1.steps j = some s →
        s.status = ToolStepStatus.completed) ∧
    (∀ j s, 1 < j → nth (execute_chain demoTools planBoom Ctx.empty).1.steps j = some s →
        s.status = ToolStepStatus.pending) ∧
    (∀ e ∈ (execute_chain demoTools planBoom Ctx.empty).2.calls, e.1 ≤ 1) :=
  claim_C2 demoTools planBoom Ctx.empty 1
    { step_number := 2, tool_name := "boom", parameters := Ctx.empty,
      status := ToolStepStatus.failed, result := none, error_message := some "kaboom",
      started_at := some 2, completed_at := some 3, context_data := Ctx.empty }
    (by decide) rfl rfl

/-- Claim C4: For every plan of pending steps, the returned
`ChainExecutionResult.success` is true iff every step ends Completed —
equivalently, iff all steps are terminal and none is Failed. -/
theorem claim_C4 (tools : List (String × ToolDefinition)) (plan : ToolChainPlan)
    (session : Ctx)
    (hpend : ∀ s ∈ plan.steps, s.status = ToolStepStatus.pending) :
    ((execute_chain tools plan session).1.success = true ↔
      ∀ s ∈ (execute_chain tools plan session).1.steps,
        s.status = ToolStepStatus.completed) ∧
    ((execute_chain tools plan session).1.success = true ↔
      ((∀ s ∈ (execute_chain tools plan session).1.steps, isTerminal s.status = true) ∧
        (∀ s ∈ (execute_chain tools plan session).1.steps,
          s.status ≠ ToolStepStatus.failed))) := by
  have hset0 : ∀ j s, nth (plan.steps.map
      (fun s => { s with context_data := Ctx.update s.context_data session })) j = some s →
      s.status = ToolStepStatus.pending ∨ s.status = ToolStepStatus.completed ∨
        s.status = ToolStepStatus.failed := by
    intro j s hj
    obtain ⟨u, hu, rfl⟩ := nth_merged plan session j s hj
    exact Or.inl (hpend u (nth_mem _ _ _ hu))
  have hset : ∀ s ∈ (execute_chain tools plan session).1.steps,
      s.status = ToolStepStatus.pending ∨ s.status = ToolStepStatus.completed ∨
        s.status = ToolStepStatus.failed := by
    intro s hsmem
    rw [execute_chain_fst_steps, execute_chain_snd] at hsmem
    obtain ⟨j, hj⟩ := mem_nth _ _ hsmem
    exact runSteps_status_set tools plan.chain_id plan.total_steps
      (plan.steps.map
        (fun s => { s with context_data := Ctx.update s.context_data session })).length 0
      { steps := plan.steps.map
          (fun s => { s with context_data := Ctx.update s.context_data session }),
        time := 0, updates := [], calls := [] }
      hset0 j s hj
  rw [execute_chain_fst_success]
  rw [show (execute_chain tools plan session).1.steps
    = (execute_chain tools plan session).2.steps from rfl] at hset ⊢
  exact is_successful_iff _ hset

/-- Witness for C4 at a concrete all-success plan. -/
theorem claim_C4_witness :
    ((execute_chain demoTools planGood Ctx.empty).1.success = true ↔
      ∀ s ∈ (execute_chain demoTools planGood Ctx.empty).1.steps,
        s.status = ToolStepStatus.completed) ∧
    ((execute_chain demoTools planGood Ctx.empty).1.success = true ↔
      ((∀ s ∈ (execute_chain demoTools planGood Ctx.empty).1.steps,
          isTerminal s.status = true) ∧
        (∀ s ∈ (execute_chain demoTools planGood Ctx.empty).1.steps,
          s.status ≠ ToolStepStatus.failed))) :=
  claim_C4 demoTools planGood Ctx.empty (by decide)

/-- Claim C5: When the step at position i completes with a successful result,
the derived context updates are merged into the snapshot of every strictly
later step, and into no other: the step's own snapshot and every earlier
snapshot are unchanged. -/
theorem claim_C5 (tools : List (String × ToolDefinition)) (cid : String) (N : Nat)
    (st : ExecState) (i : Nat) (step : ToolStep) (td : ToolDefinition) (res : ToolResult)
    (hs : nth st.steps i = some step) (hn : step.step_number = i + 1)
    (hl : dictLookup tools step.tool_name = some td)
    (ho : td.execute_func (Ctx.update step.parameters step.context_data) = ToolOutcome.ok res)
    (hr : res.success = true) :
    (∀ j, j ≤ i →
        (nth (execStep tools cid N st i).steps j).map ToolStep.context_data
          = (nth st.steps j).map ToolStep.context_data) ∧
    (∀ j s s2, i < j → nth st.steps j = some s →
        nth (execStep tools cid N st i).steps j = some s2 →
        s2.context_data
          = Ctx.update s.context_data (contextUpdatesFor step.tool_name res)) :=
  execStep_ctx_merge tools cid N st i step td res hs hn hl ho hr

/-- Witness for C5 at a concrete two-step state. -/
theorem claim_C5_witness :
    (∀ j, j ≤ 0 →
        (nth (execStep demoTools "c" 2
            { steps := [makeStep 1 "alpha" Ctx.empty, makeStep 2 "alpha" Ctx.empty],
              time := 0, updates := [], calls := [] } 0).steps j).map ToolStep.context_data
          = (nth [makeStep 1 "alpha" Ctx.empty, makeStep 2 "alpha" Ctx.empty] j).map
              ToolStep.context_data) ∧
    (∀ j s s2, 0 < j →
        nth [makeStep 1 "alpha" Ctx.empty, makeStep 2 "alpha" Ctx.empty] j = some s →
        nth (execStep demoTools "c" 2
            { steps := [makeStep 1 "alpha" Ctx.empty, makeStep 2 "alpha" Ctx.empty],
              time := 0, updates := [], calls := [] } 0).steps j = some s2 →
        s2.context_data = Ctx.update s.context_data
          (contextUpdatesFor (makeStep 1 "alpha" Ctx.empty).tool_name
            { success := true, result := none })) :=
  claim_C5 demoTools "c" 2
    { steps := [makeStep 1 "alpha" Ctx.empty, makeStep 2 "alpha" Ctx.empty],
      time := 0, updates := [], calls := [] } 0
    (makeStep 1 "alpha" Ctx.empty) _ { success := true, result := none }
    rfl rfl rfl rfl rfl

/-- Claim C10: `register_tool` with an already-registered name never fails: it
silently overwrites the entry, lookup afterwards yields the newest
definition, and the number of registered tools does not grow. -/
theorem claim_C10 (m : List (String × ToolDefinition)) (name : String)
    (f : Ctx → ToolOutcome) (descr : String) (rc pc : Option (List String))
    (d : ToolDefinition) (hmem : dictLookup m name = some d) :
    dictLookup (register_tool m name f descr rc pc) name
      = some { name := name, execute_func := f, description := descr,
               required_context := rc.getD [], provides_context := pc.getD [] } ∧
    (register_tool m name f descr rc pc).length = m.length := by
  constructor
  · exact dictLookup_dictInsert_self m name _
  · exact dictInsert_length_of_mem m name _ (by rw [hmem]; rfl)

/-- Witness for C10: re-registering `alpha` in the demo registry. -/
theorem claim_C10_witness :
    dictLookup (register_tool demoTools "alpha" okFalseTool "replacement" none none) "alpha"
      = some { name := "alpha", execute_func := okFalseTool, description := "replacement",
               required_context := (none : Option (List String)).getD [],
               provides_context := (none : Option (List String)).getD [] } ∧
    (register_tool demoTools "alpha" okFalseTool "replacement" none none).length
      = demoTools.length :=
  claim_C10 demoTools "alpha" okFalseTool "replacement" none none
    { name := "alpha", execute_func := okTrueTool, description := "always succeeds",
      required_context := [], provides_context := [] } rfl


/-- Claim C7: For every materialized plan (pending steps, 1-based numbering, all
steps sharing one initial snapshot), the `context_data` of the returned
`ChainExecutionResult` equals the final context snapshot of the last step that
actually executed (the last step whose status is not Pending); steps after a
failure never ran and contribute nothing. -/
theorem claim_C7 (tools : List (String × ToolDefinition)) (plan : ToolChainPlan)
    (session : Ctx) (c0 : Ctx)
    (hpend : ∀ s ∈ plan.steps, s.status = ToolStepStatus.pending)
    (hnum : ∀ j s, nth plan.steps j = some s → s.step_number = j + 1)
    (hctx : ∀ s ∈ plan.steps, s.context_data = c0)
    (p : Nat) (sp : ToolStep)
    (hp : nth (execute_chain tools plan session).1.steps p = some sp)
    (hpnp : sp.status ≠ ToolStepStatus.pending)
    (hlast : ∀ j s, p < j → nth (execute_chain tools plan session).1.steps j = some s →
        s.status = ToolStepStatus.pending) :
    (execute_chain tools plan session).1.context_data = sp.context_data := by
  rw [execute_chain_fst_steps, execute_chain_snd] at hp hlast
  rw [execute_chain_fst_ctx, execute_chain_snd]
  have hpend0 : ∀ j s, 0 ≤ j → nth (plan.steps.map
      (fun s => { s with context_data := Ctx.update s.context_data session })) j = some s →
      s.status = ToolStepStatus.pending := by
    intro j s _ hj
    obtain ⟨u, hu, rfl⟩ := nth_merged plan session j s hj
    exact hpend u (nth_mem _ _ _ hu)
  have hnum0 : ∀ j s, nth (plan.steps.map
      (fun s => { s with context_data := Ctx.update s.context_data session })) j = some s →
      s.step_number = j + 1 := by
    intro j s hj
    obtain ⟨u, hu, rfl⟩ := nth_merged plan session j s hj
    exact hnum j u hu
  have hctx0 : ∀ j₁ j₂ s₁ s₂, 0 ≤ j₁ → 0 ≤ j₂ →
      nth (plan.steps.map
        (fun s => { s with context_data := Ctx.update s.context_data session })) j₁ = some s₁ →
      nth (plan.steps.map
        (fun s => { s with context_data := Ctx.update s.context_data session })) j₂ = some s₂ →
      s₁.context_data = s₂.context_data := by
    intro j₁ j₂ s₁ s₂ _ _ h₁ h₂
    obtain ⟨u₁, hu₁, rfl⟩ := nth_merged plan session j₁ s₁ h₁
    obtain ⟨u₂, hu₂, rfl⟩ := nth_merged plan session j₂ s₂ h₂
    have e₁ := hctx u₁ (nth_mem _ _ _ hu₁)
    have e₂ := hctx u₂ (nth_mem _ _ _ hu₂)
    show Ctx.update u₁.context_data session = Ctx.update u₂.context_data session
    rw [e₁, e₂]
  have hkey := runSteps_ctx_last tools plan.chain_id plan.total_steps
    (plan.steps.map
      (fun s => { s with context_data := Ctx.update s.context_data session })).length 0
    { steps := plan.steps.map
        (fun s => { s with context_data := Ctx.update s.context_data session }),
      time := 0, updates := [], calls := [] }
    (by simp) hpend0 hnum0 hctx0 p sp (Nat.zero_le p) hp hpnp hlast
  -- the final snapshot is the last list entry's snapshot
  have hlenrun := runSteps_steps_length tools plan.chain_id plan.total_steps
    (plan.steps.map
      (fun s => { s with context_data := Ctx.update s.context_data session })).length 0
    { steps := plan.steps.map
        (fun s => { s with context_data := Ctx.update s.context_data session }),
      time := 0, updates := [], calls := [] }
  have hplen : p < (runSteps tools plan.chain_id plan.total_steps
      (plan.steps.map
        (fun s => { s with context_data := Ctx.update s.context_data session })).length 0
      { steps := plan.steps.map
          (fun s => { s with context_data := Ctx.update s.context_data session }),
        time := 0, updates := [], calls := [] }).steps.length := nth_lt_length _ _ _ hp
  obtain ⟨sq, hsq⟩ := nth_isSome (runSteps tools plan.chain_id plan.total_steps
      (plan.steps.map
        (fun s => { s with context_data := Ctx.update s.context_data session })).length 0
      { steps := plan.steps.map
          (fun s => { s with context_data := Ctx.update s.context_data session }),
        time := 0, updates := [], calls := [] }).steps
    ((runSteps tools plan.chain_id plan.total_steps
      (plan.steps.map
        (fun s => { s with context_data := Ctx.update s.context_data session })).length 0
      { steps := plan.steps.map
          (fun s => { s with context_data := Ctx.update s.context_data session }),
        time := 0, updates := [], calls := [] }).steps.length - 1)
    (by omega)
  rw [extractFinalContext, hsq]
  exact hkey _ sq (by omega) hsq

/-- Witness for C7 at a concrete three-step plan whose second tool raises:
the final snapshot equals the snapshot of the failed step 2. -/
theorem claim_C7_witness :
    (execute_chain demoTools planBoom Ctx.empty).1.context_data
      = ({ step_number := 2, tool_name := "boom", parameters := Ctx.empty,
           status := ToolStepStatus.failed, result := none, error_message := some "kaboom",
           started_at := some 2, completed_at := some 3,
           context_data := Ctx.empty } : ToolStep).context_data :=
  claim_C7 demoTools planBoom Ctx.empty Ctx.empty
    (by decide)
    (by
      intro j s h
      match j, h with
      | 0, h => cases Option.some.inj h; rfl
      | 1, h => cases Option.some.inj h; rfl
      | 2, h => cases Option.some.inj h; rfl
      | n + 3, h => exact Option.noConfusion h)
    (by
      intro s h
      simp only [planBoom, planOf, enumSteps, makeStep, List.mem_cons,
        List.not_mem_nil, or_false] at h
      rcases h with rfl | rfl | rfl <;> rfl)
    1
    { step_number := 2, tool_name := "boom", parameters := Ctx.empty,
      status := ToolStepStatus.failed, result := none, error_message := some "kaboom",
      started_at := some 2, completed_at := some 3, context_data := Ctx.empty }
    rfl
    (by decide)
    (by
      intro j s hj h
      match j, h with
      | 2, h => cases Option.some.inj h; rfl
      | n + 3, h => exact Option.noConfusion h)

/-- Claim C8: `getSession` returns `None` whenever the current time is strictly
after the stored session's `expires_at`, even though the session is still
resident and no sweep has run, and flips the stored status to Expired. -/
theorem claim_C8 (store : SessionStore) (now : Int) (session_id : String) (s : ChatSession)
    (hs : dictLookup store session_id = some s) (hexp : s.expires_at < now) :
    (get_session store now session_id).1 = none ∧
    dictLookup (get_session store now session_id).2 session_id
      = some { s with status := SessionStatus.expired } := by
  unfold get_session
  rw [hs]
  have hexpired : s.is_expired now = true := by
    simp [ChatSession.is_expired, hexp]
  simp [hexpired, dictLookup_dictInsert_self]

/-- Witness for C8: a session created with `expiry_hours = 0` at time 1000 and
queried one second later is reported absent and flipped to Expired. -/
theorem claim_C8_witness :
    (get_session (create_session [] 1000 "sid" 0).1 1001 "sid").1 = none ∧
    dictLookup (get_session (create_session [] 1000 "sid" 0).1 1001 "sid").2 "sid"
      = some { session_id := "sid", status := SessionStatus.expired, created_at := 1000,
               last_activity := 1000, expires_at := 1000 } :=
  claim_C8 (create_session [] 1000 "sid" 0).1 1001 "sid"
    { session_id := "sid", status := SessionStatus.active, created_at := 1000,
      last_activity := 1000, expires_at := 1000 }
    (by decide) (by decide)

/-- Claim C9: The pending-confirmation invariant (`flag = true` implies a
non-null, non-empty target address) is preserved by the operation that raises
the flag, and both clearing operations reset the whole triple in one step. -/
theorem claim_C9 :
    (∀ c e, pendingInv c → pendingInv (requestEmailConfirmation c e)) ∧
    (∀ c, pendingInv (clear_loan_context c) ∧
      (clear_loan_context c).pending_email_confirmation = false ∧
      (clear_loan_context c).pending_email_address = none ∧
      (clear_loan_context c).pending_email_loan_number = none) ∧
    (∀ c, pendingInv (clearPendingEmail c) ∧
      (clearPendingEmail c).pending_email_confirmation = false ∧
      (clearPendingEmail c).pending_email_address = none ∧
      (clearPendingEmail c).pending_email_loan_number = none) := by
  refine ⟨?_, ?_, ?_⟩
  · intro c e hinv
    unfold requestEmailConfirmation
    by_cases hguard : (truthyStr e && truthyStr c.current_loan_number) = true
    · rw [if_pos hguard]
      intro _
      exact (Bool.and_eq_true _ _ |>.mp hguard).1
    · rw [if_neg hguard]
      exact hinv
  · intro c
    refine ⟨?_, rfl, rfl, rfl⟩
    intro h
    exact absurd h (by simp [clear_loan_context])
  · intro c
    refine ⟨?_, rfl, rfl, rfl⟩
    intro h
    exact absurd h (by simp [clearPendingEmail])

/-- Witness for C9 at a concrete context carrying a loan. -/
theorem claim_C9_witness :
    pendingInv (requestEmailConfirmation
      { current_loan_number := some "69253358", current_borrower_name := some "Mark Wilson",
        current_loan_data := none, current_payoff_data := none,
        generated_pdf_filename := none, generated_pdf_url := none, borrower_email := none,
        pending_email_confirmation := false, pending_email_address := none,
        pending_email_loan_number := none }
      (some "mark.wilson@email.com")) :=
  claim_C9.1
    { current_loan_number := some "69253358", current_borrower_name := some "Mark Wilson",
      current_loan_data := none, current_payoff_data := none,
      generated_pdf_filename := none, generated_pdf_url := none, borrower_email := none,
      pending_email_confirmation := false, pending_email_address := none,
      pending_email_loan_number := none }
    (some "mark.wilson@email.com") (by decide)


/-- Claim C1, counterexample: A tool invocation that returns an explicit
failure result (`success = False`) without raising is *not* marked Failed and
does *not* stop the chain: in `planBeta`, step 2's recorded result has
`success = false`, yet all three steps end Completed and all three tools were
invoked (invocation log indices 0, 1, 2). -/
theorem claim_C1_counterexample :
    ((execute_chain demoTools planBeta Ctx.empty).1.steps.map
        (fun s => (s.result).map ToolResult.success))
      = [some true, some false, some true] ∧
    ((execute_chain demoTools planBeta Ctx.empty).1.steps.map ToolStep.status)
      = [ToolStepStatus.completed, ToolStepStatus.completed, ToolStepStatus.completed] ∧
    ((execute_chain demoTools planBeta Ctx.empty).2.calls.map (fun e => e.1))
      = [0, 1, 2] := by
  refine ⟨?_, ?_, ?_⟩ <;> decide

/-- Claim C1, amended: For every step executed by `execute_chain` whose tool
invocation raises an exception, the executor marks that step Failed with the
exception text, stamps its end time, and stops the chain: every later step
stays Pending and no tool function with a later index is ever invoked. -/
theorem claim_C1_amended (tools : List (String × ToolDefinition)) (plan : ToolChainPlan)
    (session : Ctx) (k : Nat) (msg : String)
    (hpend : ∀ s ∈ plan.steps, s.status = ToolStepStatus.pending)
    (hk : k < plan.steps.length)
    (hok : ∀ j s, j < k → nth plan.steps j = some s →
        ∃ td, dictLookup tools s.tool_name = some td ∧
          ∀ c, ∃ r, td.execute_func c = ToolOutcome.ok r)
    (hexn : ∀ s, nth plan.steps k = some s →
        ∃ td, dictLookup tools s.tool_name = some td ∧
          ∀ c, td.execute_func c = ToolOutcome.exn msg) :
    ∃ sk, nth (execute_chain tools plan session).1.steps k = some sk ∧
      sk.status = ToolStepStatus.failed ∧
      sk.error_message = some msg ∧
      (∃ t, sk.completed_at = some t) ∧
      (∀ j s, k < j → nth (execute_chain tools plan session).1.steps j = some s →
          s.status = ToolStepStatus.pending) ∧
      (∀ e ∈ (execute_chain tools plan session).2.calls, e.1 ≤ k) := by
  rw [execute_chain_fst_steps, execute_chain_snd]
  have hpend0 : ∀ j s, 0 ≤ j → nth (plan.steps.map
      (fun s => { s with context_data := Ctx.update s.context_data session })) j = some s →
      s.status = ToolStepStatus.pending := by
    intro j s _ hj
    obtain ⟨u, hu, rfl⟩ := nth_merged plan session j s hj
    exact hpend u (nth_mem _ _ _ hu)
  have hok0 : ∀ j s, 0 ≤ j → j < k → nth (plan.steps.map
      (fun s => { s with context_data := Ctx.update s.context_data session })) j = some s →
      ∃ td, dictLookup tools s.tool_name = some td ∧
        ∀ c, ∃ r, td.execute_func c = ToolOutcome.ok r := by
    intro j s _ hjk hj
    obtain ⟨u, hu, rfl⟩ := nth_merged plan session j s hj
    exact hok j u hjk hu
  have hexn0 : ∀ s, nth (plan.steps.map
      (fun s => { s with context_data := Ctx.update s.context_data session })) k = some s →
      ∃ td, dictLookup tools s.tool_name = some td ∧
        ∀ c, td.execute_func c = ToolOutcome.exn msg := by
    intro s hj
    obtain ⟨u, hu, rfl⟩ := nth_merged plan session k s hj
    exact hexn u hu
  obtain ⟨sk, hsk, h1, h2, h3, h4, h5⟩ := runSteps_exn_char tools plan.chain_id
    plan.total_steps msg
    (plan.steps.map
      (fun s => { s with context_data := Ctx.update s.context_data session })).length 0
    { steps := plan.steps.map
        (fun s => { s with context_data := Ctx.update s.context_data session }),
      time := 0, updates := [], calls := [] }
    k (by simp) hpend0 (Nat.zero_le k) (by simpa using hk) hok0 hexn0
  refine ⟨sk, hsk, h1, h2, h3, h4, ?_⟩
  intro e he
  rcases h5 e he with h | h
  · exact absurd h (List.not_mem_nil e)
  · exact h

/-- Witness for the amended C1 at a concrete plan whose second tool raises. -/
theorem claim_C1_witness :
    ∃ sk, nth (execute_chain demoTools planBoom Ctx.empty).1.steps 1 = some sk ∧
      sk.status = ToolStepStatus.failed ∧
      sk.error_message = some "kaboom" ∧
      (∃ t, sk.completed_at = some t) ∧
      (∀ j s, 1 < j → nth (execute_chain demoTools planBoom Ctx.empty).1.steps j = some s →
          s.status = ToolStepStatus.pending) ∧
      (∀ e ∈ (execute_chain demoTools planBoom Ctx.empty).2.calls, e.1 ≤ 1) :=
  claim_C1_amended demoTools planBoom Ctx.empty 1 "kaboom"
    (by decide) (by decide)
    (by
      intro j s hj hnth
      have hj0 : j = 0 := by omega
      subst hj0
      cases Option.some.inj hnth
      exact ⟨_, rfl, fun c => ⟨_, rfl⟩⟩)
    (by
      intro s hnth
      cases Option.some.inj hnth
      exact ⟨_, rfl, fun c => rfl⟩)

/-- Claim C3, counterexample: A key present both in a step's literal parameters
(`k = 1`) and in its context snapshot (`k = 2`) reaches the tool with the
*context* value 2, not the literal value 1: `parameters.update(context_data)`
lets the context override the literals. -/
theorem claim_C3_counterexample :
    ((execute_chain demoTools planOverlap Ctx.empty).2.calls.map (fun e => e.2.2 "k"))
      = [some (Val.num 2)] ∧
    overlapStep.parameters "k" = some (Val.num 1) ∧
    overlapStep.context_data "k" = some (Val.num 2) :=
  ⟨rfl, rfl, rfl⟩

/-- Claim C3, amended: For every executed step, the argument map passed to the
tool is the union of the step's literal parameters and its context snapshot,
and for every key present in both the value comes from the *context snapshot*:
literals fill gaps only and are overridden by context on overlap. -/
theorem claim_C3_amended (tools : List (String × ToolDefinition)) (cid : String) (N : Nat)
    (st : ExecState) (i : Nat) (step : ToolStep) (td : ToolDefinition)
    (hs : nth st.steps i = some step) (hl : dictLookup tools step.tool_name = some td) :
    (execStep tools cid N st i).calls
      = st.calls ++ [(i, step.tool_name, Ctx.update step.parameters step.context_data)] ∧
    (∀ k v, step.context_data k = some v →
        Ctx.update step.parameters step.context_data k = some v) ∧
    (∀ k, step.context_data k = none →
        Ctx.update step.parameters step.context_data k = step.parameters k) ∧
    (∀ k, Ctx.update step.parameters step.context_data k = none ↔
        (step.parameters k = none ∧ step.context_data k = none)) := by
  refine ⟨execStep_calls_known tools cid N st i step td hs hl, ?_, ?_, ?_⟩
  · intro k v h
    exact Ctx.update_of_right h
  · intro k h
    exact Ctx.update_of_right_none h
  · intro k
    exact Ctx.update_none_iff

/-- Witness for the amended C3 at the overlap fixture. -/
theorem claim_C3_witness :
    (execStep demoTools "c" 1
        { steps := [overlapStep], time := 0, updates := [], calls := [] } 0).calls
      = [] ++ [(0, overlapStep.tool_name,
          Ctx.update overlapStep.parameters overlapStep.context_data)] ∧
    (∀ k v, overlapStep.context_data k = some v →
        Ctx.update overlapStep.parameters overlapStep.context_data k = some v) ∧
    (∀ k, overlapStep.context_data k = none →
        Ctx.update overlapStep.parameters overlapStep.context_data k
          = overlapStep.parameters k) ∧
    (∀ k, Ctx.update overlapStep.parameters overlapStep.context_data k = none ↔
        (overlapStep.parameters k = none ∧ overlapStep.context_data k = none)) :=
  claim_C3_amended demoTools "c" 1
    { steps := [overlapStep], time := 0, updates := [], calls := [] } 0
    overlapStep _ rfl rfl

/-- Claim C6, counterexample: For an eleven-step plan the emitted percentage
sequence is *not* non-decreasing: the first step's in-progress update reports
10, its terminal update reports 100/11 < 10. -/
theorem claim_C6_counterexample :
    ¬ List.Chain' (· ≤ ·) (pcts (execute_chain demoTools planEleven Ctx.empty).2) := by
  intro h
  have h6 : pcts (execute_chain demoTools planEleven Ctx.empty).2
      = [progressPercentage 1 11 ToolStepStatus.in_progress,
         progressPercentage 1 11 ToolStepStatus.failed] := by
    simp [execute_chain, runSteps, execStep, planEleven, planOf, enumSteps, makeStep,
      demoTools, register_tool, dictInsert, dictLookup, nth, setIdx, setStep,
      sendProgressUpdate, raiseTool, pcts, updateContextFromResult]
  have e1 : progressPercentage 1 11 ToolStepStatus.in_progress = 10 := by
    rw [progressPercentage_in_progress, pymin_eq_min]
    rw [show ((((1 : Nat) : ℚ) - 1) / ((11 : Nat) : ℚ)) * 100 + 10 = 10 by push_cast; norm_num]
    exact min_eq_left (by norm_num)
  have e2 : progressPercentage 1 11 ToolStepStatus.failed = 100 / 11 := by
    rw [progressPercentage_failed, pymin_eq_min]
    rw [show (((1 : Nat) : ℚ) / ((11 : Nat) : ℚ)) * 100 = 100 / 11 by push_cast; norm_num]
    exact min_eq_left (by norm_num)
  rw [h6, e1, e2] at h
  have hle := (List.chain'_cons.mp h).1
  norm_num at hle

/-- Claim C6, amended: For every run of `execute_chain` over a well-numbered
plan, every emitted percentage lies in [0, 100]; and whenever the plan has at
most ten steps, the emitted percentage sequence is non-decreasing in emission
order. -/
theorem claim_C6_amended (tools : List (String × ToolDefinition)) (plan : ToolChainPlan)
    (session : Ctx)
    (hnum : ∀ j s, nth plan.steps j = some s → s.step_number = j + 1)
    (htot : plan.total_steps = plan.steps.length) :
    (∀ u ∈ (execute_chain tools plan session).2.updates,
        0 ≤ u.percentage ∧ u.percentage ≤ 100) ∧
    (plan.total_steps ≤ 10 →
      List.Chain' (· ≤ ·) (pcts (execute_chain tools plan session).2)) := by
  rw [execute_chain_snd]
  have hnum0 : ∀ j s, nth (plan.steps.map
      (fun s => { s with context_data := Ctx.update s.context_data session })) j = some s →
      s.step_number = j + 1 := by
    intro j s hj
    obtain ⟨u, hu, rfl⟩ := nth_merged plan session j s hj
    exact hnum j u hu
  constructor
  · intro u hu
    exact runSteps_pcts_bounds tools plan.chain_id plan.total_steps
      (plan.steps.map
        (fun s => { s with context_data := Ctx.update s.context_data session })).length 0
      { steps := plan.steps.map
          (fun s => { s with context_data := Ctx.update s.context_data session }),
        time := 0, updates := [], calls := [] }
      hnum0 (by intro x hx; exact absurd hx (List.not_mem_nil x)) u.percentage
      (List.mem_map_of_mem _ hu)
  · intro h10
    exact runSteps_pcts_chain tools plan.chain_id plan.total_steps
      (plan.steps.map
        (fun s => { s with context_data := Ctx.update s.context_data session })).length 0
      { steps := plan.steps.map
          (fun s => { s with context_data := Ctx.update s.context_data session }),
        time := 0, updates := [], calls := [] }
      (by simp [htot]) h10 hnum0 (by simp [pcts])
      (by intro x hx; exact absurd hx (by simp [pcts]))

/-- Witness for the amended C6 at a concrete three-step all-success plan. -/
theorem claim_C6_witness :
    (∀ u ∈ (execute_chain demoTools planGood Ctx.empty).2.updates,
        0 ≤ u.percentage ∧ u.percentage ≤ 100) ∧
    (planGood.total_steps ≤ 10 →
      List.Chain' (· ≤ ·) (pcts (execute_chain demoTools planGood Ctx.empty).2)) :=
  claim_C6_amended demoTools planGood Ctx.empty
    (by
      intro j s h
      match j, h with
      | 0, h => cases Option.some.inj h; rfl
      | 1, h => cases Option.some.inj h; rfl
      | 2, h => cases Option.some.inj h; rfl
      | n + 3, h => exact Option.noConfusion h)
    rfl

end MiLA
